import Mathlib

/-
Verification of the budget-constrained event selection (`musicevents.cpp`) and
of the key-modulation search (`modulate.cpp`).

The C++ `int` is the type of the integers from -2147483648 to 2147483647.  In
`musicevents.cpp` every addition and subtraction of the source is followed by
`wrap32`, which reduces the exact result to the 32-bit two's-complement word
(the value the usual compilers produce where the standard leaves signed
overflow undefined), and the theorems assume durations, costs and budgets that
are values of the type where it matters.  In `modulate.cpp` the `int` values
are positions in the vector of twelve keys, offsets of at most twelve and search
depths of at most 24, far from the bounds of the type, and are computed
exactly.  `Vector`, `Grid`, `Stack`, `Queue` and `Set` are modelled by lists, a
`Stack` being listed from its top down.  A function that can raise an error of
the Stanford library or of `std::string`, or whose behaviour is undefined
because of an array of non-positive size or an access outside an array, returns
`none` in that case.  Strings are taken to hold ASCII characters.  The first
part of the file holds the definitions, the second part the theorems.
-/

namespace MusicEvents

/-- An event is the source's `pair<int, int>`: `.1` is the duration in minutes
(`first`), `.2` is the cost (`second`). -/
abbrev Event := Int × Int

/-- The result of an `int` addition or subtraction whose exact value is `x`:
the value of the 32-bit two's-complement word, which is `x` itself unless the
operation overflows. -/
def wrap32 (x : Int) : Int := (x + 2147483648) % 4294967296 - 2147483648

/-- The integer is a value of the type `int`. -/
def InRange (x : Int) : Prop := -2147483648 ≤ x ∧ x ≤ 2147483647

instance (x : Int) : Decidable (InRange x) :=
  inferInstanceAs (Decidable (-2147483648 ≤ x ∧ x ≤ 2147483647))

/-- Every duration and every cost is a value of the type `int`. -/
def EventsInRange (events : List Event) : Prop := ∀ e ∈ events, InRange e.1 ∧ InRange e.2

instance (events : List Event) : Decidable (EventsInRange events) :=
  inferInstanceAs (Decidable (∀ e ∈ events, InRange e.1 ∧ InRange e.2))

/-- Total duration of a selection of events. -/
def totalMinutes (s : List Event) : Int := (s.map Prod.fst).sum

/-- Total cost of a selection of events. -/
def totalCost (s : List Event) : Int := (s.map Prod.snd).sum

/-- The four-argument helper `maxMinutesNaive(events, money, minutes, index)`.
`none` stands for the error raised by the bounds-checked `events[index]` when
`index` lies beyond the end of the vector. -/
def maxMinutesNaiveHelper (events : List Event) (money minutes : Int) (index : Nat) :
    Option Int :=
  if money < 0 then some (-1)
  else if index = events.length then some minutes
  else if h : index < events.length then
    match maxMinutesNaiveHelper events (wrap32 (money - events[index].2))
            (wrap32 (minutes + events[index].1)) (index + 1),
          maxMinutesNaiveHelper events money minutes (index + 1) with
    | some a, some b => some (max a b)
    | _, _ => none
  else none
termination_by events.length - index

/-- The wrapper `maxMinutesNaive(events, money)`. -/
def maxMinutesNaive (events : List Event) (money : Int) : Option Int :=
  maxMinutesNaiveHelper events money 0 0

/-- The memoisation table `Grid<int>`, stored row by row. -/
abbrev Grid := List (List Int)

/-- Bounds-checked read `memo[r][c]`. -/
def Grid.get (g : Grid) (r c : Nat) : Option Int :=
  match g[r]? with
  | none => none
  | some row => row[c]?

/-- Bounds-checked write `memo[r][c] = v`. -/
def Grid.set (g : Grid) (r c : Nat) (v : Int) : Option Grid :=
  match g[r]? with
  | none => none
  | some row => if c < row.length then some (List.set g r (List.set row c v)) else none

/-- The helper `maxMinutesMemo(events, money, index, memo)`; the table is
passed by reference in the source, so the updated table is returned next to
the result.  Of the two recursive calls inside `max`, the including call is
run first.  `none` stands for the error raised by an access outside the table
or beyond the end of the vector. -/
def maxMinutesMemoHelper (events : List Event) (money : Int) (index : Nat) (memo : Grid) :
    Option (Int × Grid) :=
  if money < 0 then some (-1, memo)
  else if index = events.length then some (0, memo)
  else
    match Grid.get memo index money.toNat with
    | none => none
    | some cached =>
      if cached ≠ -1 then some (cached, memo)
      else if h : index < events.length then
        if events[index].2 > money then
          match maxMinutesMemoHelper events money (index + 1) memo with
          | none => none
          | some (r, memo1) =>
            match Grid.set memo1 index money.toNat r with
            | none => none
            | some memo2 => some (r, memo2)
        else
          match maxMinutesMemoHelper events (wrap32 (money - events[index].2)) (index + 1)
              memo with
          | none => none
          | some (a, memo1) =>
            match maxMinutesMemoHelper events money (index + 1) memo1 with
            | none => none
            | some (b, memo2) =>
              match Grid.set memo2 index money.toNat (max (wrap32 (events[index].1 + a)) b) with
              | none => none
              | some memo3 => some (max (wrap32 (events[index].1 + a)) b, memo3)
      else none
termination_by events.length - index

/-- The wrapper `maxMinutesMemo(events, money)`: a table of `events.size()`
rows and `money + 1` columns filled with `-1`.  The `Grid` constructor raises an
error for a negative number of columns, which is what `money + 1` is for
`money` below `-1` and, by overflow, for the largest `int`. -/
def maxMinutesMemo (events : List Event) (money : Int) : Option Int :=
  if wrap32 (money + 1) < 0 then none
  else
    match maxMinutesMemoHelper events money 0
        (List.replicate events.length (List.replicate (wrap32 (money + 1)).toNat (-1))) with
    | none => none
    | some (r, _) => some r

/-- One pass of the body of the inner `for j` loop of `maxMinutesDP`, for row
counter `i`: `dp0` is `dp[0]`, `dp1` is `dp[1]`. -/
def dpCell (events : List Event) (i : Nat) (dp0 dp1 : List Int) (j : Nat) :
    Option (List Int) :=
  if i = 0 ∨ j = 0 then some dp1
  else
    match events[i - 1]? with
    | none => none
    | some e =>
      if e.2 ≤ (j : Int) then
        if wrap32 ((j : Int) - e.2) < 0 then none
        else
          match dp0[(wrap32 ((j : Int) - e.2)).toNat]?, dp0[j]? with
          | some a, some b =>
            if j < dp1.length then some (dp1.set j (max (wrap32 (a + e.1)) b)) else none
          | _, _ => none
      else
        match dp0[j]? with
        | some b => if j < dp1.length then some (dp1.set j b) else none
        | none => none

/-- One pass of the body of the outer `for i` loop: the inner loop over
`j = 0 .. money`, then the copy of `dp[1]` into `dp[0]`. -/
def dpRow (events : List Event) (money : Nat) (dp : List Int × List Int) (i : Nat) :
    Option (List Int × List Int) :=
  match (List.range (money + 1)).foldlM (fun dp1 j => dpCell events i dp.1 dp1 j) dp.2 with
  | none => none
  | some dp1 => some (dp1, dp1)

/-- The function `maxMinutesDP(events, money)`.  `none` stands for undefined
behaviour of the source: an array `dp[2][money + 1]` of non-positive size, which
is what `money + 1` gives for a negative `money` and, by overflow, for the
largest `int`, or an access outside a row of the array. -/
def maxMinutesDP (events : List Event) (money : Int) : Option Int :=
  if money < 0 ∨ wrap32 (money + 1) ≤ 0 then none
  else
    match (List.range (events.length + 1)).foldlM (dpRow events money.toNat)
        (List.replicate (wrap32 (money + 1)).toNat 0,
          List.replicate (wrap32 (money + 1)).toNat 0) with
    | none => none
    | some dp => dp.2[money.toNat]?

/-- The four-argument recursion of `maxMinutesNaive` on the events that are
left, with the `int` arithmetic of the source. -/
def naiveList : List Event → Int → Int → Int
  | [], money, minutes => if money < 0 then -1 else minutes
  | e :: rest, money, minutes =>
    if money < 0 then -1
    else max (naiveList rest (wrap32 (money - e.2)) (wrap32 (minutes + e.1)))
      (naiveList rest money minutes)

/-- The recurrence of `maxMinutesMemo` on the events that are left, with the
`int` arithmetic of the source. -/
def bestValue32 : List Event → Int → Int
  | [], _ => 0
  | e :: rest, money =>
    if e.2 > money then bestValue32 rest money
    else max (wrap32 (e.1 + bestValue32 rest (wrap32 (money - e.2)))) (bestValue32 rest money)

/-- Best total duration obtainable from a list of events with `money` to spend,
by the include/exclude recurrence on the list itself, in exact arithmetic. -/
def bestValue : List Event → Int → Int
  | [], _ => 0
  | e :: rest, money =>
    if e.2 > money then bestValue rest money
    else max (e.1 + bestValue rest (money - e.2)) (bestValue rest money)

/-- All durations and costs are non-negative. -/
def NonNeg (events : List Event) : Prop := ∀ e ∈ events, 0 ≤ e.1 ∧ 0 ≤ e.2

instance (events : List Event) : Decidable (NonNeg events) :=
  inferInstanceAs (Decidable (∀ e ∈ events, 0 ≤ e.1 ∧ 0 ≤ e.2))

/-- The value `m` is the largest total duration of a sub-collection of `events`
whose total cost is at most `budget`. -/
def IsBest (events : List Event) (budget m : Int) : Prop :=
  (∃ s, List.Sublist s events ∧ totalCost s ≤ budget ∧ totalMinutes s = m) ∧
  ∀ s, List.Sublist s events → totalCost s ≤ budget → totalMinutes s ≤ m

/-- The total duration of every sub-collection of `events` within `budget` is a
value of the type `int`: no selection the budget allows adds up beyond the
largest `int`. -/
def FitsInt (events : List Event) (budget : Int) : Prop :=
  ∀ s, List.Sublist s events → totalCost s ≤ budget → totalMinutes s ≤ 2147483647

/-- The table has one row per event and `width` columns. -/
def Grid.HasShape (g : Grid) (rows width : Nat) : Prop :=
  g.length = rows ∧ ∀ row ∈ g, row.length = width

/-- Every entry of the table other than the sentinel `-1` is the value the
uncached four-argument recursion computes for that (index, money) state. -/
def CacheSound (events : List Event) (memo : Grid) : Prop :=
  ∀ (i j : Nat) (v : Int), Grid.get memo i j = some v → v ≠ -1 →
    maxMinutesNaiveHelper events (j : Int) 0 i = some v

/-- Every entry of the table other than the sentinel `-1` is the value of the
recurrence of `maxMinutesMemo` for that (index, money) state. -/
def CacheExact (events : List Event) (memo : Grid) : Prop :=
  ∀ (i j : Nat) (v : Int), Grid.get memo i j = some v → v ≠ -1 →
    v = bestValue32 (events.drop i) (j : Int)

/-- The table `f(i, m)` of the recurrence documented above `maxMinutesDP`:
`i` events considered, `m` money available, in exact arithmetic. -/
def dpTable (events : List Event) : Nat → Nat → Int
  | 0, _ => 0
  | i + 1, j =>
    if j = 0 then 0
    else
      match events[i]? with
      | none => dpTable events i j
      | some e =>
        if e.2 ≤ (j : Int) then
          max (dpTable events i ((j : Int) - e.2).toNat + e.1) (dpTable events i j)
        else dpTable events i j

/-- The table of the same recurrence with the `int` arithmetic of the source. -/
def dpTable32 (events : List Event) : Nat → Nat → Int
  | 0, _ => 0
  | i + 1, j =>
    if j = 0 then 0
    else
      match events[i]? with
      | none => dpTable32 events i j
      | some e =>
        if e.2 ≤ (j : Int) then
          max (wrap32 (dpTable32 events i (wrap32 ((j : Int) - e.2)).toNat + e.1))
            (dpTable32 events i j)
        else dpTable32 events i j

end MusicEvents

namespace Modulate

/-- The global vector `keys`. -/
def keys : List String := ["A", "A#", "B", "C", "C#", "D", "D#", "E", "F", "F#", "G", "G#"]

/-- The global map `enharmonics`, as its list of entries. -/
def enharmonics : List (String × String) :=
  [("Bb", "A#"), ("Db", "C#"), ("Eb", "D#"), ("Gb", "F#"), ("Ab", "G#")]

/-- The global map `standard`, as its list of entries. -/
def standard : List (String × String) :=
  [("A# major", "Bb major"), ("A# minor", "Bb minor"), ("D# major", "Eb major"),
   ("G# major", "Ab major"), ("C# major", "Db major")]

/-- The method `Map::containsKey`. -/
def containsKey (m : List (String × String)) (k : String) : Bool := (m.lookup k).isSome

/-- The method `Map::get`: the stored value, or the empty string for an absent key. -/
def mapGet (m : List (String × String)) (k : String) : String := (m.lookup k).getD ""

/-- The method `string::substr(pos, len)`; `none` is the `out_of_range` error for
`pos` beyond the end of the string. -/
def substr (s : String) (pos len : Nat) : Option String :=
  if pos ≤ s.data.length then some ⟨(s.data.drop pos).take len⟩ else none

/-- The method `string::substr(pos)`. -/
def substrFrom (s : String) (pos : Nat) : Option String :=
  if pos ≤ s.data.length then some ⟨s.data.drop pos⟩ else none

/-- The access `s[i]` of `std::string`: the position one past the end holds the
null character, further positions are undefined (`none`). -/
def charAt (s : String) (i : Nat) : Option Char :=
  if i < s.data.length then s.data[i]?
  else if i = s.data.length then some (Char.ofNat 0)
  else none

/-- The function `isspace` of the C locale. -/
def isspace (c : Char) : Bool :=
  c = ' ' || c = '\t' || c = '\n' || c = Char.ofNat 11 || c = Char.ofNat 12 || c = '\r'

/-- The method `Vector::indexOf`: the first position of `x`, or `-1`. -/
def indexOf (v : List String) (x : String) : Int :=
  if x ∈ v then (v.indexOf x : Nat) else -1

/-- The bounds-checked access `v[i]` of `Vector`. -/
def vecGet (v : List String) (i : Int) : Option String :=
  if 0 ≤ i then v[i.toNat]? else none

/-- The method `Set<string>::add`; a set is kept as the sorted list in which
the source iterates over it (strings compared character by character). -/
def setAdd : List String → String → List String
  | [], x => [x]
  | y :: ys, x => if x.data < y.data then x :: y :: ys else if x = y then y :: ys else y :: setAdd ys x

/-- The function `standardize`. -/
def standardize (key : String) : String :=
  if containsKey standard key then mapGet standard key else key

/-- The block of `relatedKeys` that extracts tonality and modality from the key. -/
def splitKey (key : String) : Option (String × String) :=
  match substr key 0 2 with
  | none => none
  | some tonality =>
    match charAt tonality 1 with
    | none => none
    | some c =>
      if !isspace c then
        match substrFrom key 3 with
        | none => none
        | some modality =>
          some (if containsKey enharmonics tonality then mapGet enharmonics tonality
                else tonality, modality)
      else
        match substr tonality 0 1, substrFrom key 2 with
        | some t, some modality => some (t, modality)
        | _, _ => none

/-- The statement `if (allowed.contains(k)) related.add(standardize(neighbour))`. -/
def addRelated (allowed : List Int) (k : Int) (neighbour : Option String)
    (related : List String) : Option (List String) :=
  if k ∈ allowed then
    match neighbour with
    | none => none
    | some n => some (setAdd related (standardize n))
  else some related

/-- The expression `keys[i % keys.size()] + suffix`. -/
def keyPlus (i : Int) (suffix : String) : Option String :=
  match vecGet keys (Int.tmod i (keys.length : Int)) with
  | none => none
  | some k => some (k ++ suffix)

/-- The function `relatedKeys(key, allowed)`. -/
def relatedKeys (key : String) (allowed : List Int) : Option (List String) :=
  match splitKey key with
  | none => none
  | some (tonality, modality) =>
    let index := indexOf keys tonality
    if modality = "major" then
      (((((addRelated allowed 0 (some (tonality ++ " minor")) []).bind
        (addRelated allowed 1 (keyPlus (index + 2) " minor"))).bind
        (addRelated allowed 2 (keyPlus (index + 4) " minor"))).bind
        (addRelated allowed 3 (keyPlus (index + 5) " major"))).bind
        (addRelated allowed 4 (keyPlus (index + 7) " major"))).bind
        (addRelated allowed 5 (keyPlus (index + 9) " minor"))
    else
      (((((addRelated allowed 0 (some (tonality ++ " major")) []).bind
        (addRelated allowed 1 (keyPlus (index + (keys.length : Int) - 2) " major"))).bind
        (addRelated allowed 2 (keyPlus (index + (keys.length : Int) - 4) " major"))).bind
        (addRelated allowed 3 (keyPlus (index + (keys.length : Int) - 5) " minor"))).bind
        (addRelated allowed 4 (keyPlus (index + (keys.length : Int) - 7) " minor"))).bind
        (addRelated allowed 5 (keyPlus (index + (keys.length : Int) - 9) " major"))

/-- The function `containsMusicalKey(path, key)`; a stack is the list of its
elements from the top down. -/
def containsMusicalKey : List String → String → Bool
  | [], _ => false
  | check :: rest, key => if check = key then true else containsMusicalKey rest key

/-- The loop that collects into `valid` the related keys not yet on the path. -/
def validKeys (path : List String) : List String → List String → List String
  | [], valid => valid
  | key :: rest, valid =>
    validKeys path rest (if !containsMusicalKey path key then setAdd valid key else valid)

/-- The expression `enharmonics.get(endKey.substr(0, 2)) + endKey.substr(2)`. -/
def enharmonicEndKey (endKey : String) : Option String :=
  match substr endKey 0 2, substrFrom endKey 2 with
  | some t, some rest => some (mapGet enharmonics t ++ rest)
  | _, _ => none

/-- What a run of a search gives: the stack it returns, an error raised by a
library call, or a loop still running when the step allowance ran out. -/
inductive Outcome where
  | returned (path : List String)
  | raised
  | unfinished
  deriving DecidableEq, Repr

/-- The `while (!paths.isEmpty())` loop of `modulateBFS`, run for at most `fuel`
iterations on the queue `paths` (front first). -/
def modulateBFSLoop (endKey : String) (allowed : List Int) :
    Nat → List (List String) → Outcome
  | _, [] => Outcome.returned []
  | 0, _ :: _ => Outcome.unfinished
  | fuel + 1, path :: paths =>
    match enharmonicEndKey endKey with
    | none => Outcome.raised
    | some enharmonicEnd =>
      match path with
      | [] => Outcome.raised
      | top :: below =>
        if top = endKey then Outcome.returned (top :: below)
        else if top = enharmonicEnd then Outcome.returned (endKey :: below)
        else
          match relatedKeys top allowed with
          | none => Outcome.raised
          | some related =>
            modulateBFSLoop endKey allowed fuel
              (paths ++ (validKeys (top :: below) related []).map (fun key => key :: top :: below))

/-- The function `modulateBFS(startKey, endKey, allowed)`, its loop run for at
most `fuel` iterations. -/
def modulateBFS (fuel : Nat) (startKey endKey : String) (allowed : List Int) : Outcome :=
  modulateBFSLoop endKey allowed fuel [[startKey]]

/-- The `for (string key : valid)` loop of the recursive `modulateDFS`, with the
recursive call at depth `maxDepth - 1` passed in as `search`; the state is
(`bestPath`, `currentPath`). -/
def dfsLoop (search : List String → List String → Option (Bool × List String × List String)) :
    List String → List String → List String → Option (Bool × List String × List String)
  | [], bestPath, currentPath => some (false, bestPath, currentPath)
  | key :: rest, bestPath, currentPath =>
    match search bestPath (key :: currentPath) with
    | none => none
    | some (true, best2, current2) => some (true, best2, current2)
    | some (false, best2, current2) =>
      match current2 with
      | [] => none
      | _ :: popped => dfsLoop search rest best2 popped

/-- The recursive `modulateDFS` with `maxDepth = depth - 1`: the result flag and
the two stacks passed by reference. -/
def modulateDFSDepth (endKey : String) (allowed : List Int) :
    Nat → List String → List String → Option (Bool × List String × List String)
  | 0, bestPath, currentPath => some (false, bestPath, currentPath)
  | depth + 1, bestPath, currentPath =>
    match enharmonicEndKey endKey with
    | none => none
    | some enharmonicEnd =>
      match currentPath with
      | [] => none
      | top :: below =>
        if top = endKey ∨ top = enharmonicEnd then some (true, endKey :: below, top :: below)
        else
          match relatedKeys top allowed with
          | none => none
          | some related =>
            dfsLoop (modulateDFSDepth endKey allowed depth)
              (validKeys (top :: below) related []) bestPath (top :: below)

/-- The six-argument `modulateDFS(startKey, endKey, allowed, bestPath,
currentPath, maxDepth)`. -/
def modulateDFSHelper (_startKey endKey : String) (allowed : List Int)
    (bestPath currentPath : List String) (maxDepth : Int) :
    Option (Bool × List String × List String) :=
  modulateDFSDepth endKey allowed (maxDepth + 1).toNat bestPath currentPath

/-- The iterative-deepening `for` loop of the wrapper `modulateDFS`, over the
remaining depths. -/
def deepen (startKey endKey : String) (allowed : List Int) :
    List Nat → List String → List String → Option (List String)
  | [], _, _ => some []
  | i :: rest, best, currPath =>
    match modulateDFSHelper startKey endKey allowed best currPath (i : Int) with
    | none => none
    | some (true, best2, _) => some best2
    | some (false, best2, currPath2) => deepen startKey endKey allowed rest best2 currPath2

/-- The wrapper `modulateDFS(startKey, endKey, allowed)`. -/
def modulateDFS (startKey endKey : String) (allowed : List Int) : Option (List String) :=
  deepen startKey endKey allowed (List.range 25) [] [startKey]

/-- The tonics of the documented key format: the twelve sharp spellings of
`keys` and the five flat spellings of `enharmonics`. -/
def tonics : List String := keys ++ enharmonics.map Prod.fst

/-- Every key string of the documented format: a tonic, a space, and `major` or
`minor`. -/
def wellFormedKeys : List String :=
  tonics.map (fun t => t ++ " major") ++ tonics.map (fun t => t ++ " minor")

/-- The key string is written in the documented format. -/
def WellFormed (key : String) : Prop := key ∈ wellFormedKeys

instance (key : String) : Decidable (WellFormed key) :=
  inferInstanceAs (Decidable (key ∈ wellFormedKeys))

/-- The 24 keys in display spelling: `standardize` applied to every sharp-spelled key. -/
def displayKeys : List String :=
  keys.map (fun t => standardize (t ++ " major")) ++
    keys.map (fun t => standardize (t ++ " minor"))

/-- The six neighbours computed by `relatedKeys` before filtering by `allowed`
and before `standardize`, in the order of the relation indices 0 to 5. -/
def candidates (tonality modality : String) : List (Option String) :=
  if modality = "major" then
    [some (tonality ++ " minor"), keyPlus (indexOf keys tonality + 2) " minor",
     keyPlus (indexOf keys tonality + 4) " minor", keyPlus (indexOf keys tonality + 5) " major",
     keyPlus (indexOf keys tonality + 7) " major", keyPlus (indexOf keys tonality + 9) " minor"]
  else
    [some (tonality ++ " major"),
     keyPlus (indexOf keys tonality + (keys.length : Int) - 2) " major",
     keyPlus (indexOf keys tonality + (keys.length : Int) - 4) " major",
     keyPlus (indexOf keys tonality + (keys.length : Int) - 5) " minor",
     keyPlus (indexOf keys tonality + (keys.length : Int) - 7) " minor",
     keyPlus (indexOf keys tonality + (keys.length : Int) - 9) " major"]

/-- The key splits into tonality and modality and each of its six neighbours
exists and is, after `standardize`, one of the display keys. -/
def neighboursDisplayed (key : String) : Bool :=
  match splitKey key with
  | none => false
  | some (tonality, modality) =>
    (candidates tonality modality).all (fun c =>
      match c with
      | none => false
      | some n => decide (standardize n ∈ displayKeys))

/-- One modulation step: `b` is a member of `relatedKeys(a, allowed)`. -/
def Related (allowed : List Int) (a b : String) : Prop :=
  ∃ related, relatedKeys a allowed = some related ∧ b ∈ related

/-- The search stops at `key`: it is `endKey` itself or the string
`enharmonicEndKey` computes from `endKey`. -/
def IsTarget (endKey key : String) : Prop :=
  key = endKey ∨ enharmonicEndKey endKey = some key

/-- A route, listed from the start key on: it starts at `startKey`, each key
after the first is related to its predecessor, and its last key is a target. -/
def IsRoute (allowed : List Int) (startKey endKey : String) (route : List String) : Prop :=
  route.head? = some startKey ∧ List.Chain' (Related allowed) route ∧
    ∃ last, route.getLast? = some last ∧ IsTarget endKey last

/-- A stack (top first) that holds a walk from `startKey`: its bottom is
`startKey` and each key is related to the key below it. -/
def StackWalk (allowed : List Int) (startKey : String) (path : List String) : Prop :=
  path.getLast? = some startKey ∧ List.Chain' (fun a b => Related allowed b a) path

/-- A stack that holds a walk from `startKey` without repeated key whose top is
a target. -/
def TargetWalk (allowed : List Int) (startKey endKey : String) (path : List String) : Prop :=
  StackWalk allowed startKey path ∧ path.Nodup ∧ ∃ top, path.head? = some top ∧ IsTarget endKey top

/-- What a finished search may return: the empty stack when no walk reaches a
target, and otherwise a stack as long as a shortest walk to a target. -/
def ShortestOrNone (allowed : List Int) (startKey endKey : String) (path : List String) : Prop :=
  (path = [] ∧ ∀ w, ¬ TargetWalk allowed startKey endKey w) ∨
  (∃ top below, TargetWalk allowed startKey endKey (top :: below) ∧
    (path = top :: below ∨ path = endKey :: below) ∧
    ∀ w, TargetWalk allowed startKey endKey w → (top :: below).length ≤ w.length)

/-- Every walk to a target without repeated key still runs through a path of
the queue: some queued path is the lower part of its stack. -/
def Covered (allowed : List Int) (startKey endKey : String) (queue : List (List String)) : Prop :=
  ∀ w, TargetWalk allowed startKey endKey w → ∃ q ∈ queue, q <:+ w

/-- The queue holds its paths by non-decreasing length, none more than one key
longer than the front path. -/
def LenSorted (queue : List (List String)) : Prop :=
  queue.Pairwise (fun a b => a.length ≤ b.length) ∧
    ∀ p ∈ queue.head?, ∀ q ∈ queue, q.length ≤ p.length + 1

/-- Every queued path is a walk from `startKey` without repeated key. -/
def AllWalks (allowed : List Int) (startKey : String) (queue : List (List String)) : Prop :=
  ∀ q ∈ queue, StackWalk allowed startKey q ∧ q.Nodup

/-- The keys of `dom` have their related keys inside `dom` again, at most six
of them, and `relatedKeys` raises no error on them. -/
def DomClosed (allowed : List Int) (dom : List String) : Prop :=
  ∀ k ∈ dom, ∃ l, relatedKeys k allowed = some l ∧ (∀ x ∈ l, x ∈ dom) ∧ l.length ≤ 6

/-- The path `cur` extends, by fewer than `n` further keys, to a walk without
repeated key that ends on a target. -/
def Extends (allowed : List Int) (startKey endKey : String) (cur : List String) (n : Nat) : Prop :=
  ∃ ext : List String, ext.length < n ∧ TargetWalk allowed startKey endKey (ext ++ cur)

/-- What a call of the recursive `modulateDFS` at `maxDepth = n - 1` does on the
stacks `best` and `cur`: on `false` both stacks are as before and no target is
within reach; on `true` the current path has grown into a walk to a target and
`best` is that walk with `endKey` on top. -/
def DFSSpec (allowed : List Int) (startKey endKey : String) (n : Nat) (best cur : List String)
    (r : Bool × List String × List String) : Prop :=
  (r.1 = false → r.2.1 = best ∧ r.2.2 = cur ∧ ¬ Extends allowed startKey endKey cur n) ∧
  (r.1 = true → ∃ ext : List String, ext.length < n ∧
    TargetWalk allowed startKey endKey (ext ++ cur) ∧ r.2.2 = ext ++ cur ∧
    r.2.1 = endKey :: (ext ++ cur).tail)

/-- The pitch class and modality a key string denotes, as `relatedKeys` reads
it: the position of its sharp-spelled tonic in `keys`, and its modality. -/
def pitchOf (key : String) : Option (Int × String) :=
  match splitKey key with
  | none => none
  | some (tonality, modality) => some (indexOf keys tonality, modality)

/-- A path kept by a search: a walk from `startKey` without repeated key, none
of whose keys below the top is a target. -/
def SearchPath (allowed : List Int) (startKey endKey : String) (path : List String) : Prop :=
  StackWalk allowed startKey path ∧ path.Nodup ∧ ∀ k ∈ path.tail, ¬ IsTarget endKey k

/-- The shape of a non-empty stack returned by a search: the search reached a
target `top` over the keys `below`, and returns `below` with `endKey` on top. -/
def Reached (allowed : List Int) (startKey endKey : String) (path : List String) : Prop :=
  ∃ top below, path = endKey :: below ∧ IsTarget endKey top ∧
    SearchPath allowed startKey endKey (top :: below)

/-- The relation indices that `relatedKeys` looks up in `allowed`. -/
def relationIndices : List Int := [0, 1, 2, 3, 4, 5]

/-- The list of the values when every entry is present. -/
def allSome : List (Option String) → Option (List String)
  | [] => some []
  | none :: _ => none
  | some a :: rest =>
    match allSome rest with
    | none => none
    | some l => some (a :: l)

/-- The six neighbours of a key after `standardize`, in the order of the
relation indices, before the filter by `allowed`. -/
def neighbours (key : String) : Option (List String) :=
  match splitKey key with
  | none => none
  | some (tonality, modality) =>
    match allSome (candidates tonality modality) with
    | none => none
    | some l => some (l.map standardize)

/-- The set built from indexed neighbours by adding, in order, those whose
relation index is in `allowed`. -/
def collect (allowed : List Int) : List (Int × String) → List String → List String
  | [], related => related
  | (k, n) :: rest, related =>
    collect allowed rest (if k ∈ allowed then setAdd related n else related)

/-- The key has six neighbours, pairwise different, all of them display keys. -/
def neighboursDistinct (key : String) : Bool :=
  match neighbours key with
  | none => false
  | some cs => decide (cs.Nodup) && cs.all (fun c => decide (c ∈ displayKeys))

/-- The sharp spellings that `standardize` rewrites. -/
def rewrittenKeys : List String := standard.map Prod.fst

/-- The relation index that leads back: 3 and 4 change places, every other
index stays. -/
def swapRelation (k : Int) : Int := if k = 3 then 4 else if k = 4 then 3 else k

/-- Every neighbour of `a`, reached by relation `k`, has `a` as its neighbour by
relation `swapRelation k`. -/
def reversibleAt (a : String) : Bool :=
  match neighbours a with
  | none => false
  | some cs =>
    (List.zip relationIndices cs).all (fun p =>
      match neighbours p.2 with
      | none => false
      | some ds => decide ((swapRelation p.1, a) ∈ List.zip relationIndices ds))

end Modulate

namespace MusicEvents

theorem NonNeg.tail {e : Event} {l : List Event} (h : NonNeg (e :: l)) : NonNeg l :=
  fun x hx => h x (List.mem_cons_of_mem _ hx)

theorem NonNeg.head {e : Event} {l : List Event} (h : NonNeg (e :: l)) : 0 ≤ e.1 ∧ 0 ≤ e.2 :=
  h e (List.mem_cons_self _ _)

theorem NonNeg.drop {l : List Event} (h : NonNeg l) (k : Nat) : NonNeg (l.drop k) :=
  fun x hx => h x (List.mem_of_mem_drop hx)

theorem NonNeg.sublist {s l : List Event} (h : NonNeg l) (hs : List.Sublist s l) : NonNeg s :=
  fun x hx => h x (hs.subset hx)

theorem totalCost_nonneg {s : List Event} (h : NonNeg s) : 0 ≤ totalCost s := by
  induction s with
  | nil => simp [totalCost]
  | cons e l ih =>
    have h1 := h.head
    have h2 := ih h.tail
    simp only [totalCost, List.map_cons, List.sum_cons] at *
    omega

theorem totalMinutes_nonneg {s : List Event} (h : NonNeg s) : 0 ≤ totalMinutes s := by
  induction s with
  | nil => simp [totalMinutes]
  | cons e l ih =>
    have h1 := h.head
    have h2 := ih h.tail
    simp only [totalMinutes, List.map_cons, List.sum_cons] at *
    omega

theorem totalCost_cons (e : Event) (s : List Event) : totalCost (e :: s) = e.2 + totalCost s := by
  simp [totalCost]

theorem totalMinutes_cons (e : Event) (s : List Event) :
    totalMinutes (e :: s) = e.1 + totalMinutes s := by
  simp [totalMinutes]

theorem bestValue_nonneg {l : List Event} (h : NonNeg l) (money : Int) :
    0 ≤ bestValue l money := by
  induction l generalizing money with
  | nil => simp [bestValue]
  | cons e l ih =>
    have h2 := ih h.tail money
    simp only [bestValue]
    split
    · exact h2
    · exact le_trans h2 (le_max_right _ _)

theorem bestValue_upper {l : List Event} (h : NonNeg l) (money : Int) (s : List Event)
    (hs : List.Sublist s l) (hc : totalCost s ≤ money) : totalMinutes s ≤ bestValue l money := by
  induction hs generalizing money with
  | slnil => simp [totalMinutes, bestValue]
  | @cons s l e hs ih =>
    have h2 := ih h.tail money hc
    simp only [bestValue]
    split
    · exact h2
    · exact le_trans h2 (le_max_right _ _)
  | @cons₂ s l e hs ih =>
    rw [totalCost_cons] at hc
    have hs0 := totalCost_nonneg (h.tail.sublist hs)
    have h2 := ih h.tail (money - e.2) (by omega)
    simp only [bestValue]
    rw [if_neg (by omega), totalMinutes_cons]
    exact le_trans (by omega) (le_max_left _ _)

theorem bestValue_attained {l : List Event} (h : NonNeg l) (money : Int) (hm : 0 ≤ money) :
    ∃ s, List.Sublist s l ∧ totalCost s ≤ money ∧ totalMinutes s = bestValue l money := by
  induction l generalizing money with
  | nil => exact ⟨[], List.Sublist.slnil, by simpa [totalCost] using hm, by simp [totalMinutes, bestValue]⟩
  | cons e l ih =>
    simp only [bestValue]
    split
    · obtain ⟨s, hs, hc, hv⟩ := ih h.tail money hm
      exact ⟨s, hs.cons e, hc, hv⟩
    · rename_i hle
      rcases le_total (e.1 + bestValue l (money - e.2)) (bestValue l money) with hcmp | hcmp
      · obtain ⟨s, hs, hc, hv⟩ := ih h.tail money hm
        exact ⟨s, hs.cons e, hc, by rw [max_eq_right hcmp]; exact hv⟩
      · obtain ⟨s, hs, hc, hv⟩ := ih h.tail (money - e.2) (by omega)
        refine ⟨e :: s, hs.cons₂ e, ?_, ?_⟩
        · rw [totalCost_cons]; omega
        · rw [max_eq_left hcmp, totalMinutes_cons, hv]

theorem bestValue_isBest {l : List Event} (h : NonNeg l) (money : Int) (hm : 0 ≤ money) :
    IsBest l money (bestValue l money) :=
  ⟨bestValue_attained h money hm, fun s hs hc => bestValue_upper h money s hs hc⟩

theorem maxMinutesNaiveHelper_neg (events : List Event) (money minutes : Int) (index : Nat)
    (hm : money < 0) : maxMinutesNaiveHelper events money minutes index = some (-1) := by
  rw [maxMinutesNaiveHelper, if_pos hm]

theorem Grid.get_of_shape {g : Grid} {rows width r c : Nat} (hs : g.HasShape rows width)
    (hr : r < rows) (hc : c < width) : ∃ v, Grid.get g r c = some v := by
  obtain ⟨hl, hw⟩ := hs
  have hr2 : r < g.length := by omega
  have hrow := hw g[r] (List.getElem_mem hr2)
  refine ⟨(g[r])[c], ?_⟩
  unfold Grid.get
  rw [List.getElem?_eq_getElem hr2]
  exact List.getElem?_eq_getElem (by omega)

theorem Grid.set_of_shape {g : Grid} {rows width r c : Nat} (hs : g.HasShape rows width)
    (hr : r < rows) (hc : c < width) (v : Int) :
    ∃ g2, Grid.set g r c v = some g2 ∧ g2.HasShape rows width ∧
      ∀ i j, Grid.get g2 i j = if i = r ∧ j = c then some v else Grid.get g i j := by
  obtain ⟨hl, hw⟩ := hs
  have hr2 : r < g.length := by omega
  have hrow := hw g[r] (List.getElem_mem hr2)
  refine ⟨List.set g r (List.set g[r] c v), ?_, ⟨?_, ?_⟩, ?_⟩
  · unfold Grid.set
    rw [List.getElem?_eq_getElem hr2]
    simp only
    rw [if_pos (by omega)]
  · simpa using hl
  · intro row hrow2
    rcases List.mem_or_eq_of_mem_set hrow2 with h1 | h1
    · exact hw row h1
    · rw [h1]; simpa using hrow
  · intro i j
    unfold Grid.get
    by_cases hi : i = r
    · subst hi
      rw [List.getElem?_set_self hr2]
      simp only [true_and]
      by_cases hj : j = c
      · subst hj
        rw [if_pos rfl]
        exact List.getElem?_set_self (by omega)
      · rw [if_neg hj, List.getElem?_eq_getElem hr2]
        simp only
        exact List.getElem?_set_ne (Ne.symm hj)
    · rw [if_neg (fun h => hi h.1), List.getElem?_set_ne (Ne.symm hi)]

theorem replicate_hasShape (rows width : Nat) :
    Grid.HasShape (List.replicate rows (List.replicate width (-1))) rows width := by
  refine ⟨by simp, ?_⟩
  intro row hrow
  rw [List.eq_of_mem_replicate hrow]
  simp

theorem replicate_cacheSound (events : List Event) (rows width : Nat) :
    CacheSound events (List.replicate rows (List.replicate width (-1))) := by
  intro i j v hv hne
  exfalso
  apply hne
  unfold Grid.get at hv
  by_cases hi : i < rows
  · rw [List.getElem?_eq_getElem (by simpa using hi)] at hv
    simp only [List.getElem_replicate] at hv
    by_cases hj : j < width
    · rw [List.getElem?_eq_getElem (by simpa using hj)] at hv
      simp only [List.getElem_replicate, Option.some.injEq] at hv
      exact hv.symm
    · rw [List.getElem?_eq_none (by simpa using hj)] at hv
      exact absurd hv (by simp)
  · rw [List.getElem?_eq_none (by simpa using hi)] at hv
    exact absurd hv (by simp)

theorem dpTable_col_zero (events : List Event) (i : Nat) : dpTable events i 0 = 0 := by
  cases i <;> simp [dpTable]

theorem dpTable_nonneg (events : List Event) (i j : Nat) :
    0 ≤ dpTable events i j := by
  induction i generalizing j with
  | zero => simp [dpTable]
  | succ i ih =>
    rw [dpTable]
    split
    · exact le_rfl
    · split
      · exact ih j
      · split
        · exact le_trans (ih j) (le_max_right _ _)
        · exact ih j

theorem dpTable_mono (events : List Event) (h : NonNeg events) (i : Nat) :
    ∀ j1 j2 : Nat, j1 ≤ j2 → dpTable events i j1 ≤ dpTable events i j2 := by
  induction i with
  | zero => intro j1 j2 _; simp [dpTable]
  | succ i ih =>
    intro j1 j2 hj
    by_cases h1 : j1 = 0
    · subst h1
      rw [dpTable_col_zero]
      exact dpTable_nonneg events _ _
    · have h2 : j2 ≠ 0 := by omega
      rw [dpTable, dpTable, if_neg h1, if_neg h2]
      cases hev : events[i]? with
      | none => exact ih j1 j2 hj
      | some e =>
        simp only
        have hpos := (h e (List.getElem?_mem hev)).2
        by_cases hc1 : e.2 ≤ (j1 : Int)
        · have hc2 : e.2 ≤ (j2 : Int) := by omega
          rw [if_pos hc1, if_pos hc2]
          apply max_le_max
          · have := ih ((j1 : Int) - e.2).toNat ((j2 : Int) - e.2).toNat (by omega)
            omega
          · exact ih j1 j2 hj
        · rw [if_neg hc1]
          split
          · exact le_trans (ih j1 j2 hj) (le_max_right _ _)
          · exact ih j1 j2 hj

theorem dpTable_of_costly (events : List Event) (b : Nat) (h : ∀ e ∈ events, (b : Int) < e.2)
    (i j : Nat) (hj : j ≤ b) : dpTable events i j = 0 := by
  induction i with
  | zero => simp [dpTable]
  | succ i ih =>
    rw [dpTable]
    split
    · rfl
    · cases hev : events[i]? with
      | none => exact ih
      | some e =>
        simp only
        have := h e (List.getElem?_mem hev)
        rw [if_neg (by omega)]
        exact ih

theorem bestValue_mono {l : List Event} (h : NonNeg l) (b1 b2 : Int) (h1 : 0 ≤ b1)
    (h12 : b1 ≤ b2) : bestValue l b1 ≤ bestValue l b2 := by
  obtain ⟨s, hs, hc, hv⟩ := bestValue_attained h b1 h1
  rw [← hv]
  exact bestValue_upper h b2 s hs (le_trans hc h12)

theorem bestValue_of_costly (l : List Event) (b : Int) (h : ∀ e ∈ l, b < e.2) :
    bestValue l b = 0 := by
  induction l with
  | nil => rfl
  | cons e l ih =>
    simp only [bestValue]
    rw [if_pos (h e (List.mem_cons_self _ _))]
    exact ih (fun x hx => h x (List.mem_cons_of_mem _ hx))

theorem bestValue_zero_budget {l : List Event} (h : NonNeg l) :
    bestValue l 0 = totalMinutes (l.filter (fun e => e.2 = 0)) := by
  induction l with
  | nil => rfl
  | cons e l ih =>
    have hh := h.head
    have hb := bestValue_nonneg h.tail 0
    simp only [bestValue]
    by_cases hc : e.2 = 0
    · rw [if_neg (by omega), List.filter_cons_of_pos (by simpa using hc), totalMinutes_cons,
        ← ih h.tail, hc, sub_zero]
      apply max_eq_left
      omega
    · rw [if_pos (by omega), List.filter_cons_of_neg (by simpa using hc)]
      exact ih h.tail

theorem totalCost_reverse (s : List Event) : totalCost s.reverse = totalCost s := by
  simp [totalCost, List.sum_reverse]

theorem totalMinutes_reverse (s : List Event) : totalMinutes s.reverse = totalMinutes s := by
  simp [totalMinutes, List.sum_reverse]

theorem isBest_of_reverse {l : List Event} {budget m : Int} (h : IsBest l.reverse budget m) :
    IsBest l budget m := by
  obtain ⟨⟨s, hs, hc, hv⟩, hup⟩ := h
  refine ⟨⟨s.reverse, ?_, by rw [totalCost_reverse]; exact hc,
    by rw [totalMinutes_reverse]; exact hv⟩, ?_⟩
  · have := List.reverse_sublist.2 hs
    rwa [List.reverse_reverse] at this
  · intro t ht hct
    have := hup t.reverse (List.reverse_sublist.2 ht) (by rw [totalCost_reverse]; exact hct)
    rwa [totalMinutes_reverse] at this

/-- With strictly positive costs, the cell `dp[i][j]` of the recurrence table is
the best value of the first `i` events with `j` to spend. -/
theorem dpTable_eq_bestValue (events : List Event) (hpos : ∀ e ∈ events, 0 < e.2) :
    ∀ (i : Nat), i ≤ events.length → ∀ j : Nat,
      dpTable events i j = bestValue (events.take i).reverse (j : Int) := by
  intro i
  induction i with
  | zero => intro _ j; simp [dpTable, bestValue]
  | succ i ih =>
    intro hi j
    have hlt : i < events.length := by omega
    have hcost := hpos _ (List.getElem_mem hlt)
    have htake : (events.take (i + 1)).reverse = events[i] :: (events.take i).reverse := by
      rw [List.take_succ, List.getElem?_eq_getElem hlt]
      simp
    rw [htake]
    by_cases hj : j = 0
    · subst hj
      rw [dpTable_col_zero]
      symm
      apply bestValue_of_costly
      intro e he
      rcases List.mem_cons.1 he with h | h
      · rw [h]; exact_mod_cast hcost
      · have := hpos e (List.mem_of_mem_take (List.mem_reverse.1 h))
        exact_mod_cast this
    · rw [dpTable, if_neg hj, List.getElem?_eq_getElem hlt]
      simp only [bestValue]
      by_cases hle : events[i].2 ≤ (j : Int)
      · rw [if_pos hle, if_neg (by omega), ih (by omega), ih (by omega),
          Int.toNat_of_nonneg (by omega), add_comm]
      · rw [if_neg hle, if_pos (by omega), ih (by omega)]

theorem wrap32_of_inRange {x : Int} (h : InRange x) : wrap32 x = x := by
  unfold wrap32
  unfold InRange at h
  omega

theorem wrap32_of_bounds {x : Int} (h1 : -2147483648 ≤ x) (h2 : x ≤ 2147483647) :
    wrap32 x = x :=
  wrap32_of_inRange ⟨h1, h2⟩

theorem maxMinutesNaiveHelper_eq_list (events : List Event) :
    ∀ (k index : Nat) (money minutes : Int), events.length - index = k →
      index ≤ events.length →
      maxMinutesNaiveHelper events money minutes index
        = some (naiveList (events.drop index) money minutes) := by
  intro k
  induction k with
  | zero =>
    intro index money minutes hk hi
    have hidx : index = events.length := by omega
    rw [maxMinutesNaiveHelper, hidx, List.drop_length]
    by_cases hm : money < 0
    · rw [if_pos hm]; simp [naiveList, hm]
    · rw [if_neg hm, if_pos rfl]; simp [naiveList, hm]
  | succ k ih =>
    intro index money minutes hk hi
    have hlt : index < events.length := by omega
    rw [maxMinutesNaiveHelper, List.drop_eq_getElem_cons hlt]
    by_cases hm : money < 0
    · rw [if_pos hm]; simp [naiveList, hm]
    · rw [if_neg hm, if_neg (by omega), dif_pos hlt,
        ih (index + 1) _ _ (by omega) (by omega), ih (index + 1) _ _ (by omega) (by omega)]
      simp [naiveList, hm]

theorem maxMinutesNaive_eq_list (events : List Event) (money : Int) :
    maxMinutesNaive events money = some (naiveList events money 0) := by
  unfold maxMinutesNaive
  rw [maxMinutesNaiveHelper_eq_list events _ 0 money 0 rfl (Nat.zero_le _)]
  simp

theorem naiveList_neg (l : List Event) (money minutes : Int) (h : money < 0) :
    naiveList l money minutes = -1 := by
  cases l <;> simp [naiveList, h]

/-- With non-negative events, a budget and a running total that are `int`
values, and a best total that fits the type `int`, the recursion returns the
running total plus the best value of the events that are left. -/
theorem naiveList_eq {l : List Event} (h : NonNeg l) (hr : EventsInRange l) :
    ∀ (money minutes : Int), 0 ≤ money → money ≤ 2147483647 → 0 ≤ minutes →
      minutes + bestValue l money ≤ 2147483647 →
      naiveList l money minutes = minutes + bestValue l money := by
  induction l with
  | nil =>
    intro money minutes hm _ _ _
    simp [naiveList, bestValue, not_lt.2 hm]
  | cons e rest ih =>
    intro money minutes hm hmax hmin hfit
    have he := h.head
    have her := hr e (List.mem_cons_self _ _)
    have hrr : EventsInRange rest := fun x hx => hr x (List.mem_cons_of_mem _ hx)
    have hb := bestValue_nonneg h.tail
    unfold InRange at her
    rw [naiveList, if_neg (not_lt.2 hm)]
    simp only [bestValue] at hfit ⊢
    have hcost : wrap32 (money - e.2) = money - e.2 := wrap32_of_bounds (by omega) (by omega)
    rw [hcost]
    by_cases hc : e.2 > money
    · rw [if_pos hc] at hfit ⊢
      rw [naiveList_neg _ _ _ (by omega), ih h.tail hrr money minutes hm hmax hmin hfit]
      apply max_eq_right
      have := hb money
      omega
    · rw [if_neg hc] at hfit ⊢
      have hl := le_max_left (e.1 + bestValue rest (money - e.2)) (bestValue rest money)
      have hrt := le_max_right (e.1 + bestValue rest (money - e.2)) (bestValue rest money)
      have h1 : minutes + (e.1 + bestValue rest (money - e.2)) ≤ 2147483647 := by omega
      have h2 : minutes + bestValue rest money ≤ 2147483647 := by omega
      have hb1 := hb (money - e.2)
      have hmin2 : wrap32 (minutes + e.1) = minutes + e.1 :=
        wrap32_of_bounds (by omega) (by omega)
      rw [hmin2, ih h.tail hrr (money - e.2) (minutes + e.1) (by omega) (by omega) (by omega)
        (by omega), ih h.tail hrr money minutes hm hmax hmin h2, ← max_add_add_left]
      congr 1
      omega

theorem bestValue_le_of_fitsInt {events : List Event} (h : NonNeg events) (budget : Int)
    (hb : 0 ≤ budget) (hfit : FitsInt events budget) : bestValue events budget ≤ 2147483647 := by
  obtain ⟨s, hs, hc, hv⟩ := bestValue_attained h budget hb
  rw [← hv]
  exact hfit s hs hc

theorem totalMinutes_sublist_le {s l : List Event} (h : NonNeg l) (hs : List.Sublist s l) :
    totalMinutes s ≤ totalMinutes l := by
  induction hs with
  | slnil => exact le_rfl
  | @cons s l e hs ih =>
    have := ih h.tail
    have := h.head
    rw [totalMinutes_cons]; omega
  | @cons₂ s l e hs ih =>
    have := ih h.tail
    rw [totalMinutes_cons, totalMinutes_cons]; omega

/-- Events whose durations add up to an `int` value fit the type `int` at every budget. -/
theorem fitsInt_of_total {events : List Event} (h : NonNeg events)
    (ht : totalMinutes events ≤ 2147483647) (budget : Int) : FitsInt events budget :=
  fun _ hs _ => le_trans (totalMinutes_sublist_le h hs) ht

theorem fitsInt_mono {events : List Event} {b1 b2 : Int} (h12 : b1 ≤ b2)
    (hfit : FitsInt events b2) : FitsInt events b1 :=
  fun s hs hc => hfit s hs (le_trans hc h12)

theorem maxMinutesNaive_eq (events : List Event) (h : NonNeg events) (hr : EventsInRange events)
    (money : Int) (hm : 0 ≤ money) (hmax : money ≤ 2147483647)
    (hfit : bestValue events money ≤ 2147483647) :
    maxMinutesNaive events money = some (bestValue events money) := by
  rw [maxMinutesNaive_eq_list, naiveList_eq h hr money 0 hm hmax le_rfl (by omega)]
  simp

theorem naiveList_ge (l : List Event) :
    ∀ (money minutes : Int), 0 ≤ money → minutes ≤ naiveList l money minutes := by
  induction l with
  | nil => intro money minutes hm; simp [naiveList, not_lt.2 hm]
  | cons e rest ih =>
    intro money minutes hm
    rw [naiveList, if_neg (not_lt.2 hm)]
    exact le_trans (ih money minutes hm) (le_max_right _ _)

/-- The recursion never loses by a larger budget, whatever the running total:
a selection the smaller budget allows is allowed by the larger one. -/
theorem naiveList_mono_aux {l : List Event}
    (hc : ∀ e ∈ l, 0 ≤ e.2 ∧ e.2 ≤ 2147483647) :
    ∀ (m1 m2 minutes : Int), m1 ≤ m2 → m2 ≤ 2147483647 → -2147483648 ≤ m1 →
      max (naiveList l m1 minutes) (-1) ≤ max (naiveList l m2 minutes) (-1) := by
  induction l with
  | nil =>
    intro m1 m2 minutes h12 _ _
    by_cases h1 : m1 < 0
    · simp only [naiveList, if_pos h1]
      exact max_le (le_max_right _ _) (le_max_right _ _)
    · simp only [naiveList, if_neg h1, if_neg (show ¬ m2 < 0 by omega)]
      exact le_rfl
  | cons e rest ih =>
    intro m1 m2 minutes h12 hmax hmin
    have he := hc e (List.mem_cons_self _ _)
    have hrest : ∀ x ∈ rest, 0 ≤ x.2 ∧ x.2 ≤ 2147483647 :=
      fun x hx => hc x (List.mem_cons_of_mem _ hx)
    by_cases h1 : m1 < 0
    · rw [naiveList_neg _ _ _ h1]
      exact max_le (le_max_right _ _) (le_max_right _ _)
    · rw [naiveList, naiveList, if_neg h1, if_neg (show ¬ m2 < 0 by omega),
        wrap32_of_bounds (show -2147483648 ≤ m1 - e.2 by omega) (by omega),
        wrap32_of_bounds (show -2147483648 ≤ m2 - e.2 by omega) (by omega)]
      have hA := ih hrest (m1 - e.2) (m2 - e.2) (wrap32 (minutes + e.1)) (by omega) (by omega)
        (by omega)
      have hB := ih hrest m1 m2 minutes h12 hmax hmin
      refine max_le (max_le ?_ ?_) (le_max_right _ _)
      · exact le_trans (le_max_left _ _) (le_trans hA
          (max_le (le_trans (le_max_left _ _) (le_max_left _ _)) (le_max_right _ _)))
      · exact le_trans (le_max_left _ _) (le_trans hB
          (max_le (le_trans (le_max_right _ _) (le_max_left _ _)) (le_max_right _ _)))

theorem naiveList_mono {l : List Event} (hc : ∀ e ∈ l, 0 ≤ e.2 ∧ e.2 ≤ 2147483647)
    (b1 b2 : Int) (h1 : 0 ≤ b1) (h12 : b1 ≤ b2) (hmax : b2 ≤ 2147483647) :
    naiveList l b1 0 ≤ naiveList l b2 0 := by
  have h := naiveList_mono_aux hc b1 b2 0 h12 hmax (by omega)
  have g1 := naiveList_ge l b1 0 h1
  have g2 := naiveList_ge l b2 0 (le_trans h1 h12)
  rw [max_eq_left (by omega), max_eq_left (by omega)] at h
  exact h

theorem bestValue32_eq {l : List Event} (h : NonNeg l) (hr : EventsInRange l) :
    ∀ (money : Int), 0 ≤ money → money ≤ 2147483647 → bestValue l money ≤ 2147483647 →
      bestValue32 l money = bestValue l money := by
  induction l with
  | nil => intro _ _ _ _; rfl
  | cons e rest ih =>
    intro money hm hmax hfit
    have he := h.head
    have her := hr e (List.mem_cons_self _ _)
    have hrr : EventsInRange rest := fun x hx => hr x (List.mem_cons_of_mem _ hx)
    have hb := bestValue_nonneg h.tail
    unfold InRange at her
    simp only [bestValue, bestValue32] at hfit ⊢
    by_cases hc : e.2 > money
    · rw [if_pos hc] at hfit
      rw [if_pos hc, if_pos hc]
      exact ih h.tail hrr money hm hmax hfit
    · rw [if_neg hc] at hfit
      rw [if_neg hc, if_neg hc]
      have hl := le_max_left (e.1 + bestValue rest (money - e.2)) (bestValue rest money)
      have hrt := le_max_right (e.1 + bestValue rest (money - e.2)) (bestValue rest money)
      have hb1 := hb (money - e.2)
      rw [wrap32_of_bounds (show -2147483648 ≤ money - e.2 by omega) (by omega),
        ih h.tail hrr (money - e.2) (by omega) (by omega) (by omega),
        ih h.tail hrr money hm hmax (by omega),
        wrap32_of_bounds (show -2147483648 ≤ e.1 + bestValue rest (money - e.2) by omega)
          (by omega)]

theorem bestValue32_of_costly (l : List Event) (b : Int) (h : ∀ e ∈ l, b < e.2) :
    bestValue32 l b = 0 := by
  induction l with
  | nil => rfl
  | cons e l ih =>
    simp only [bestValue32]
    rw [if_pos (h e (List.mem_cons_self _ _))]
    exact ih (fun x hx => h x (List.mem_cons_of_mem _ hx))

theorem maxMinutesMemoHelper_eq32 (events : List Event)
    (hc : ∀ e ∈ events, 0 ≤ e.2 ∧ e.2 ≤ 2147483647) (width : Nat) :
    ∀ (k index : Nat) (money : Int) (memo : Grid), events.length - index = k →
      index ≤ events.length → 0 ≤ money → money ≤ 2147483647 → money.toNat < width →
      memo.HasShape events.length width → CacheExact events memo →
      ∃ memo2, maxMinutesMemoHelper events money index memo
          = some (bestValue32 (events.drop index) money, memo2) ∧
        memo2.HasShape events.length width ∧ CacheExact events memo2 := by
  intro k
  induction k with
  | zero =>
    intro index money memo hk hi hm _ _ hs hce
    have hidx : index = events.length := by omega
    refine ⟨memo, ?_, hs, hce⟩
    rw [maxMinutesMemoHelper, if_neg (by omega), if_pos hidx]
    simp [hidx, bestValue32]
  | succ k ih =>
    intro index money memo hk hi hm hmax hw hs hce
    have hlt : index < events.length := by omega
    have hev := hc _ (List.getElem_mem hlt)
    have hcast : ((money.toNat : Nat) : Int) = money := Int.toNat_of_nonneg hm
    obtain ⟨cached, hget⟩ := Grid.get_of_shape hs hlt hw
    rw [maxMinutesMemoHelper, if_neg (by omega), if_neg (by omega), hget]
    simp only
    by_cases hcached : cached ≠ -1
    · rw [if_pos hcached]
      have := hce index money.toNat cached hget hcached
      rw [hcast] at this
      exact ⟨memo, by rw [this], hs, hce⟩
    · rw [if_neg hcached, dif_pos hlt]
      rw [List.drop_eq_getElem_cons hlt]
      -- storing the value of the recurrence keeps the table exact
      have hstore : ∀ (m1 : Grid), m1.HasShape events.length width → CacheExact events m1 →
          ∃ m2, Grid.set m1 index money.toNat
              (bestValue32 (events[index] :: events.drop (index + 1)) money) = some m2 ∧
            m2.HasShape events.length width ∧ CacheExact events m2 := by
        intro m1 hs1 hc1
        obtain ⟨m2, hset, hs2, hget2⟩ := Grid.set_of_shape hs1 hlt hw
          (bestValue32 (events[index] :: events.drop (index + 1)) money)
        refine ⟨m2, hset, hs2, ?_⟩
        intro i j v hv hne
        rw [hget2] at hv
        split at hv
        · rename_i hij
          obtain ⟨rfl, rfl⟩ := hij
          simp only [Option.some.injEq] at hv
          rw [hcast, List.drop_eq_getElem_cons hlt, hv]
        · exact hc1 i j v hv hne
      by_cases hcost : events[index].2 > money
      · rw [if_pos hcost]
        obtain ⟨m1, hrec, hs1, hc1⟩ :=
          ih (index + 1) money memo (by omega) (by omega) hm hmax hw hs hce
        rw [hrec]
        simp only
        have hbv : bestValue32 (events[index] :: events.drop (index + 1)) money
            = bestValue32 (events.drop (index + 1)) money := by
          simp only [bestValue32]; rw [if_pos hcost]
        obtain ⟨m2, hset, hs2, hc2⟩ := hstore m1 hs1 hc1
        rw [hbv] at hset ⊢
        rw [hset]
        exact ⟨m2, rfl, hs2, hc2⟩
      · rw [if_neg hcost]
        have hwrap : wrap32 (money - events[index].2) = money - events[index].2 :=
          wrap32_of_bounds (by omega) (by omega)
        have hm2 : 0 ≤ wrap32 (money - events[index].2) := by rw [hwrap]; omega
        have hw2 : (wrap32 (money - events[index].2)).toNat < width := by rw [hwrap]; omega
        obtain ⟨m1, hrec1, hs1, hc1⟩ :=
          ih (index + 1) (wrap32 (money - events[index].2)) memo (by omega) (by omega) hm2
            (by rw [hwrap]; omega) hw2 hs hce
        obtain ⟨m2, hrec2, hs2, hc2⟩ :=
          ih (index + 1) money m1 (by omega) (by omega) hm hmax hw hs1 hc1
        rw [hrec1]
        simp only
        rw [hrec2]
        simp only
        have hbv : bestValue32 (events[index] :: events.drop (index + 1)) money
            = max (wrap32 (events[index].1 + bestValue32 (events.drop (index + 1))
                (wrap32 (money - events[index].2)))) (bestValue32 (events.drop (index + 1)) money) := by
          simp only [bestValue32]; rw [if_neg hcost]
        obtain ⟨m3, hset, hs3, hc3⟩ := hstore m2 hs2 hc2
        rw [hbv] at hset ⊢
        rw [hset]
        exact ⟨m3, rfl, hs3, hc3⟩

theorem replicate_cacheExact (events : List Event) (rows width : Nat) :
    CacheExact events (List.replicate rows (List.replicate width (-1))) := by
  intro i j v hv hne
  exfalso
  apply hne
  unfold Grid.get at hv
  by_cases hi : i < rows
  · rw [List.getElem?_eq_getElem (by simpa using hi)] at hv
    simp only [List.getElem_replicate] at hv
    by_cases hj : j < width
    · rw [List.getElem?_eq_getElem (by simpa using hj)] at hv
      simp only [List.getElem_replicate, Option.some.injEq] at hv
      exact hv.symm
    · rw [List.getElem?_eq_none (by simpa using hj)] at hv
      exact absurd hv (by simp)
  · rw [List.getElem?_eq_none (by simpa using hi)] at hv
    exact absurd hv (by simp)

theorem wrap32_succ {money : Int} (hm : 0 ≤ money) (hmax : money < 2147483647) :
    wrap32 (money + 1) = money + 1 :=
  wrap32_of_bounds (by omega) (by omega)

theorem maxMinutesMemo_eq32 (events : List Event)
    (hc : ∀ e ∈ events, 0 ≤ e.2 ∧ e.2 ≤ 2147483647) (money : Int) (hm : 0 ≤ money)
    (hmax : money < 2147483647) :
    maxMinutesMemo events money = some (bestValue32 events money) := by
  unfold maxMinutesMemo
  rw [wrap32_succ hm hmax, if_neg (by omega)]
  obtain ⟨m2, hrec, _, _⟩ := maxMinutesMemoHelper_eq32 events hc (money + 1).toNat _ 0 money
    (List.replicate events.length (List.replicate (money + 1).toNat (-1))) rfl (Nat.zero_le _) hm
    (by omega) (by omega) (replicate_hasShape _ _) (replicate_cacheExact events _ _)
  rw [hrec]
  simp

theorem costs_of_nonNeg_inRange {events : List Event} (h : NonNeg events)
    (hr : EventsInRange events) : ∀ e ∈ events, 0 ≤ e.2 ∧ e.2 ≤ 2147483647 :=
  fun e he => ⟨(h e he).2, (hr e he).2.2⟩

theorem maxMinutesMemo_eq (events : List Event) (h : NonNeg events) (hr : EventsInRange events)
    (money : Int) (hm : 0 ≤ money) (hmax : money < 2147483647)
    (hfit : bestValue events money ≤ 2147483647) :
    maxMinutesMemo events money = some (bestValue events money) := by
  rw [maxMinutesMemo_eq32 events (costs_of_nonNeg_inRange h hr) money hm hmax,
    bestValue32_eq h hr money hm (by omega) hfit]

theorem bestValue_drop_le {events : List Event} (h : NonNeg events) (i : Nat) (j budget : Int)
    (hj : 0 ≤ j) (hjb : j ≤ budget) :
    bestValue (events.drop i) j ≤ bestValue events budget := by
  obtain ⟨s, hs, hc, hv⟩ := bestValue_attained (h.drop i) j hj
  rw [← hv]
  exact bestValue_upper h budget s (hs.trans (List.drop_sublist i events)) (le_trans hc hjb)

/-- At every state the memoised search can visit, the uncached recursion
returns the value of the recurrence. -/
theorem maxMinutesNaiveHelper_state (events : List Event) (h : NonNeg events)
    (hr : EventsInRange events) (budget : Int) (hmax : budget ≤ 2147483647)
    (hfit : bestValue events budget ≤ 2147483647) (i : Nat) (hi : i ≤ events.length)
    (j : Int) (hj : 0 ≤ j) (hjb : j ≤ budget) :
    maxMinutesNaiveHelper events j 0 i = some (bestValue32 (events.drop i) j) := by
  have hle := bestValue_drop_le h i j budget hj hjb
  have hrd : EventsInRange (events.drop i) := fun x hx => hr x (List.mem_of_mem_drop hx)
  rw [maxMinutesNaiveHelper_eq_list events _ i j 0 rfl hi,
    naiveList_eq (h.drop i) hrd j 0 hj (by omega) le_rfl (by omega),
    bestValue32_eq (h.drop i) hrd j hj (by omega) (by omega)]
  simp

theorem Grid.get_some_bounds {g : Grid} {rows width r c : Nat} {v : Int}
    (hs : g.HasShape rows width) (h : Grid.get g r c = some v) : r < rows ∧ c < width := by
  obtain ⟨hl, hw⟩ := hs
  unfold Grid.get at h
  by_cases hr : r < g.length
  · rw [List.getElem?_eq_getElem hr] at h
    simp only at h
    have hrow := hw g[r] (List.getElem_mem hr)
    by_cases hc : c < g[r].length
    · exact ⟨by omega, by omega⟩
    · rw [List.getElem?_eq_none (by omega)] at h
      exact absurd h (by simp)
  · rw [List.getElem?_eq_none (by omega)] at h
    exact absurd h (by simp)

theorem dpTable32_col_zero (events : List Event) (i : Nat) : dpTable32 events i 0 = 0 := by
  cases i <;> simp [dpTable32]

theorem dpCell_fold_zero (events : List Event) (dp0 : List Int) (l : List Nat) (dp1 : List Int) :
    l.foldlM (fun dp1 j => dpCell events 0 dp0 dp1 j) dp1 = some dp1 := by
  induction l generalizing dp1 with
  | nil => rfl
  | cons j l ih =>
    rw [List.foldlM_cons]
    have : dpCell events 0 dp0 dp1 j = some dp1 := by simp [dpCell]
    rw [this]
    exact ih dp1

theorem dpCell_fold (events : List Event) (i m : Nat) (hm : m < 2147483647) (e : Event)
    (hi : i ≠ 0) (he : events[i - 1]? = some e) (hc : 0 ≤ e.2) (dp0 dp1 : List Int)
    (g : Nat → Int) (hg : ∀ j < m + 1, dp0[j]? = some (g j)) (h1 : dp1.length = m + 1) :
    ∀ k ≤ m + 1, ∃ r, (List.range k).foldlM (fun dp1 j => dpCell events i dp0 dp1 j) dp1 = some r ∧
      r.length = m + 1 ∧
      ∀ j < m + 1, r[j]? =
        if 1 ≤ j ∧ j < k then
          some (if e.2 ≤ (j : Int) then
            max (wrap32 (g (wrap32 ((j : Int) - e.2)).toNat + e.1)) (g j) else g j)
        else dp1[j]? := by
  intro k
  induction k with
  | zero =>
    intro _
    refine ⟨dp1, rfl, h1, ?_⟩
    intro j _
    rw [if_neg (by omega)]
  | succ k ih =>
    intro hk
    obtain ⟨r, hr, hlen, hval⟩ := ih (by omega)
    rw [List.range_succ, List.foldlM_append, hr]
    simp only [Option.bind_eq_bind, Option.some_bind, List.foldlM_cons, List.foldlM_nil]
    by_cases hk0 : k = 0
    · subst hk0
      refine ⟨r, by simp [dpCell], hlen, ?_⟩
      intro j hj
      rw [hval j hj, if_neg (by omega), if_neg (by omega)]
    · have hkm : k < m + 1 := by omega
      have hcell : dpCell events i dp0 r k = some (r.set k
          (if e.2 ≤ (k : Int) then
            max (wrap32 (g (wrap32 ((k : Int) - e.2)).toNat + e.1)) (g k) else g k)) := by
        unfold dpCell
        rw [if_neg (by omega), he]
        simp only
        by_cases hle : e.2 ≤ (k : Int)
        · have hw : wrap32 ((k : Int) - e.2) = (k : Int) - e.2 :=
            wrap32_of_bounds (by omega) (by omega)
          rw [if_pos hle, if_pos hle, if_neg (by rw [hw]; omega),
            hg _ (by rw [hw]; omega), hg k hkm]
          simp only
          rw [if_pos (by omega)]
        · rw [if_neg hle, if_neg hle, hg k hkm]
          simp only
          rw [if_pos (by omega)]
      rw [hcell]
      refine ⟨_, rfl, by simpa using hlen, ?_⟩
      intro j hj
      rw [List.getElem?_set]
      by_cases hjk : k = j
      · subst hjk
        rw [if_pos rfl, if_pos (show k < r.length by omega),
          if_pos (show 1 ≤ k ∧ k < k + 1 by omega)]
      · rw [if_neg hjk, hval j hj]
        by_cases hlt : 1 ≤ j ∧ j < k
        · rw [if_pos hlt, if_pos (show 1 ≤ j ∧ j < k + 1 by omega)]
        · rw [if_neg hlt, if_neg (show ¬(1 ≤ j ∧ j < k + 1) by omega)]

theorem dpRow_fold (events : List Event) (hc : ∀ e ∈ events, 0 ≤ e.2) (m : Nat)
    (hm : m < 2147483647) :
    ∀ k ≤ events.length, ∃ r, (List.range (k + 1)).foldlM (dpRow events m)
        (List.replicate (m + 1) 0, List.replicate (m + 1) 0) = some (r, r) ∧
      r.length = m + 1 ∧ ∀ j < m + 1, r[j]? = some (dpTable32 events k j) := by
  intro k
  induction k with
  | zero =>
    intro _
    refine ⟨List.replicate (m + 1) 0, ?_, by simp, ?_⟩
    · have hone : List.range (0 + 1) = [0] := rfl
      rw [hone]
      simp only [List.foldlM_cons, List.foldlM_nil, dpRow]
      rw [dpCell_fold_zero]
      rfl
    · intro j hj
      rw [List.getElem?_eq_getElem (by simpa using hj)]
      simp [dpTable32]
  | succ k ih =>
    intro hk
    obtain ⟨r, hr, hlen, hval⟩ := ih (by omega)
    have hlt : k < events.length := by omega
    have he : events[k + 1 - 1]? = some events[k] := by
      simp only [Nat.add_sub_cancel]; exact List.getElem?_eq_getElem hlt
    obtain ⟨r2, hr2, hlen2, hval2⟩ := dpCell_fold events (k + 1) m hm events[k] (by omega) he
      (hc _ (List.getElem_mem hlt)) r r (dpTable32 events k) hval hlen (m + 1) le_rfl
    refine ⟨r2, ?_, hlen2, ?_⟩
    · rw [List.range_succ, List.foldlM_append, hr]
      simp only [Option.bind_eq_bind, Option.some_bind, List.foldlM_cons, List.foldlM_nil, dpRow]
      rw [hr2]
      rfl
    · intro j hj
      rw [hval2 j hj]
      by_cases hj0 : j = 0
      · subst hj0
        rw [if_neg (by omega), hval 0 hj, dpTable32_col_zero, dpTable32_col_zero]
      · rw [if_pos (by omega)]
        congr 1
        conv_rhs => rw [dpTable32]
        rw [if_neg hj0, List.getElem?_eq_getElem hlt]

theorem maxMinutesDP_eq32 (events : List Event) (hc : ∀ e ∈ events, 0 ≤ e.2) (money : Int)
    (hm : 0 ≤ money) (hmax : money < 2147483647) :
    maxMinutesDP events money = some (dpTable32 events events.length money.toNat) := by
  unfold maxMinutesDP
  have hsize : (wrap32 (money + 1)).toNat = money.toNat + 1 := by
    rw [wrap32_succ hm hmax]; omega
  rw [if_neg (by rw [wrap32_succ hm hmax]; omega), hsize]
  obtain ⟨r, hr, _, hval⟩ := dpRow_fold events hc money.toNat (by omega) events.length le_rfl
  rw [hr]
  exact hval _ (by omega)

theorem dpTable_step_le (events : List Event) (i j : Nat) :
    dpTable events i j ≤ dpTable events (i + 1) j := by
  by_cases hj : j = 0
  · subst hj
    rw [dpTable_col_zero, dpTable_col_zero]
  · conv_rhs => rw [dpTable]
    rw [if_neg hj]
    cases hev : events[i]? with
    | none => exact le_rfl
    | some e =>
      simp only
      split
      · exact le_max_right _ _
      · exact le_rfl

theorem dpTable32_eq (events : List Event) (h : NonNeg events) (b : Nat)
    (hb : b < 2147483647) :
    ∀ (i : Nat), dpTable events i b ≤ 2147483647 → ∀ j ≤ b,
      dpTable32 events i j = dpTable events i j := by
  intro i
  induction i with
  | zero => intro _ j _; simp [dpTable, dpTable32]
  | succ i ih =>
    intro hfit j hj
    have hprev := ih (le_trans (dpTable_step_le events i b) hfit)
    by_cases hj0 : j = 0
    · subst hj0
      rw [dpTable_col_zero, dpTable32_col_zero]
    · have htop : dpTable events (i + 1) j ≤ 2147483647 :=
        le_trans (dpTable_mono events h (i + 1) j b hj) hfit
      rw [dpTable] at htop
      rw [dpTable, dpTable32, if_neg hj0, if_neg hj0]
      rw [if_neg hj0] at htop
      cases hev : events[i]? with
      | none => exact hprev j hj
      | some e =>
        rw [hev] at htop
        simp only at htop ⊢
        have hcost := (h e (List.getElem?_mem hev)).2
        have hdur := (h e (List.getElem?_mem hev)).1
        by_cases hle : e.2 ≤ (j : Int)
        · rw [if_pos hle] at htop
          rw [if_pos hle, if_pos hle]
          have hw : wrap32 ((j : Int) - e.2) = (j : Int) - e.2 :=
            wrap32_of_bounds (by omega) (by omega)
          have hl := le_max_left (dpTable events i ((j : Int) - e.2).toNat + e.1)
            (dpTable events i j)
          have hnn := dpTable_nonneg events i ((j : Int) - e.2).toNat
          rw [hw, hprev _ (by omega), hprev j hj,
            wrap32_of_bounds (show -2147483648 ≤ dpTable events i ((j : Int) - e.2).toNat + e.1
              by omega) (by omega)]
        · rw [if_neg hle, if_neg hle]
          exact hprev j hj

theorem dpTable_le_bestValue (events : List Event) (h : NonNeg events) :
    ∀ (i : Nat), i ≤ events.length → ∀ j : Nat,
      dpTable events i j ≤ bestValue (events.take i).reverse (j : Int) := by
  intro i
  induction i with
  | zero => intro _ j; simp [dpTable, bestValue]
  | succ i ih =>
    intro hi j
    have hlt : i < events.length := by omega
    have hcost := (h _ (List.getElem_mem hlt)).2
    have htake : (events.take (i + 1)).reverse = events[i] :: (events.take i).reverse := by
      rw [List.take_succ, List.getElem?_eq_getElem hlt]
      simp
    by_cases hj : j = 0
    · subst hj
      rw [dpTable_col_zero]
      apply bestValue_nonneg
      intro e he
      exact h e (List.mem_of_mem_take (List.mem_reverse.1 he))
    · rw [htake, dpTable, if_neg hj, List.getElem?_eq_getElem hlt]
      simp only [bestValue]
      by_cases hle : events[i].2 ≤ (j : Int)
      · rw [if_pos hle, if_neg (by omega)]
        apply max_le_max
        · have := ih (by omega) ((j : Int) - events[i].2).toNat
          rw [Int.toNat_of_nonneg (by omega)] at this
          omega
        · exact ih (by omega) j
      · rw [if_neg hle, if_pos (by omega)]
        exact ih (by omega) j

theorem dpTable_le_of_fitsInt (events : List Event) (h : NonNeg events) (budget : Int)
    (hb : 0 ≤ budget) (hfit : FitsInt events budget) :
    dpTable events events.length budget.toNat ≤ 2147483647 := by
  have hrev : NonNeg events.reverse := fun e he => h e (List.mem_reverse.1 he)
  have h1 := dpTable_le_bestValue events h events.length le_rfl budget.toNat
  rw [List.take_length, Int.toNat_of_nonneg hb] at h1
  obtain ⟨s, hs, hcs, hv⟩ := bestValue_attained hrev budget hb
  have hsub : List.Sublist s.reverse events := by
    have := List.reverse_sublist.2 hs
    rwa [List.reverse_reverse] at this
  have := hfit s.reverse hsub (by rw [totalCost_reverse]; exact hcs)
  rw [totalMinutes_reverse] at this
  omega

theorem maxMinutesDP_eq (events : List Event) (h : NonNeg events) (money : Int)
    (hm : 0 ≤ money) (hmax : money < 2147483647)
    (hfit : dpTable events events.length money.toNat ≤ 2147483647) :
    maxMinutesDP events money = some (dpTable events events.length money.toNat) := by
  rw [maxMinutesDP_eq32 events (fun e he => (h e he).2) money hm hmax,
    dpTable32_eq events h money.toNat (by omega) events.length hfit money.toNat le_rfl]

theorem dpTable32_of_costly (events : List Event) (b : Nat) (h : ∀ e ∈ events, (b : Int) < e.2)
    (i j : Nat) (hj : j ≤ b) : dpTable32 events i j = 0 := by
  induction i with
  | zero => simp [dpTable32]
  | succ i ih =>
    rw [dpTable32]
    split
    · rfl
    · cases hev : events[i]? with
      | none => exact ih
      | some e =>
        simp only
        have := h e (List.getElem?_mem hev)
        rw [if_neg (by omega)]
        exact ih

theorem cacheExact_of_sound {events : List Event} {memo : Grid} {width : Nat}
    (hstate : ∀ (i j : Nat), i < events.length → j < width →
      maxMinutesNaiveHelper events (j : Int) 0 i
        = some (bestValue32 (events.drop i) (j : Int)))
    (hs : memo.HasShape events.length width) (hc : CacheSound events memo) :
    CacheExact events memo := by
  intro i j v hget hne
  obtain ⟨hi, hj⟩ := Grid.get_some_bounds hs hget
  have h1 := hc i j v hget hne
  rw [hstate i j hi hj] at h1
  exact (Option.some.inj h1).symm

theorem cacheSound_of_exact {events : List Event} {memo : Grid} {width : Nat}
    (hstate : ∀ (i j : Nat), i < events.length → j < width →
      maxMinutesNaiveHelper events (j : Int) 0 i
        = some (bestValue32 (events.drop i) (j : Int)))
    (hs : memo.HasShape events.length width) (hc : CacheExact events memo) :
    CacheSound events memo := by
  intro i j v hget hne
  obtain ⟨hi, hj⟩ := Grid.get_some_bounds hs hget
  rw [hstate i j hi hj, hc i j v hget hne]

/-- With budget 0 and non-negative costs `maxMinutesDP` returns 0, whatever the
events are: column 0 of its table is never written. -/
theorem maxMinutesDP_zero_budget (events : List Event) (hc : ∀ e ∈ events, 0 ≤ e.2) :
    maxMinutesDP events 0 = some 0 := by
  rw [maxMinutesDP_eq32 events hc 0 le_rfl (by decide)]
  exact congrArg some (dpTable32_col_zero events _)

/-- C1 (counterexample): the events (2147483647, 1), (1, 1) have non-negative
`int` durations and costs, and with budget 2 both can be chosen, so the largest
total duration within the budget is 2147483648, which is no value of the type
`int`; `maxMinutesNaive` returns 2147483647. -/
theorem maxMinutesNaive_overflow_counterexample :
    NonNeg [(2147483647, 1), (1, 1)] ∧ EventsInRange [(2147483647, 1), (1, 1)] ∧
      IsBest [(2147483647, 1), (1, 1)] 2 2147483648 ∧ ¬ InRange 2147483648 ∧
      maxMinutesNaive [(2147483647, 1), (1, 1)] 2 = some 2147483647 := by
  refine ⟨by decide, by decide, ?_, by decide, by rw [maxMinutesNaive_eq_list]; decide⟩
  have h := bestValue_isBest (show NonNeg [(2147483647, 1), (1, 1)] by decide) 2 (by decide)
  have hv : bestValue [(2147483647, 1), (1, 1)] 2 = 2147483648 := by decide
  rwa [hv] at h

/-- C1 (amended): for an event sequence with non-negative `int` durations and
costs and an `int` budget of at least 0 such that no selection within the budget
has a total duration beyond the largest `int`, `maxMinutesNaive` returns a
value, and that value is the largest total duration among the sub-collections
of the events whose total cost is at most the budget. -/
theorem maxMinutesNaive_is_best (events : List Event) (budget : Int) (hev : NonNeg events)
    (hr : EventsInRange events) (hb : 0 ≤ budget) (hbr : InRange budget)
    (hfit : FitsInt events budget) :
    ∃ m, maxMinutesNaive events budget = some m ∧ IsBest events budget m :=
  ⟨bestValue events budget,
    maxMinutesNaive_eq events hev hr budget hb hbr.2 (bestValue_le_of_fitsInt hev budget hb hfit),
    bestValue_isBest hev budget hb⟩

/-- C1 (witness of the amended claim): the first event list of the tests,
budget 15. -/
theorem maxMinutesNaive_is_best_witness :
    NonNeg [(40, 10), (30, 5), (15, 3), (5, 1)] ∧
      EventsInRange [(40, 10), (30, 5), (15, 3), (5, 1)] ∧ (0 : Int) ≤ 15 ∧ InRange 15 ∧
      FitsInt [(40, 10), (30, 5), (15, 3), (5, 1)] 15 ∧
      ∃ m, maxMinutesNaive [(40, 10), (30, 5), (15, 3), (5, 1)] 15 = some m ∧
        IsBest [(40, 10), (30, 5), (15, 3), (5, 1)] 15 m :=
  ⟨by decide, by decide, by decide, by decide, fitsInt_of_total (by decide) (by decide) 15,
    maxMinutesNaive_is_best _ _ (by decide) (by decide) (by decide) (by decide)
      (fitsInt_of_total (by decide) (by decide) 15)⟩

/-- C2 (evaluation at the failing input): on the events (5, 0), (3, 2) with
budget 2, all durations and costs non-negative, `maxMinutesDP` returns 5 while
`maxMinutesNaive` returns 8, the total duration of both events. -/
theorem maxMinutesDP_differs_from_naive :
    NonNeg [(5, 0), (3, 2)] ∧ maxMinutesDP [(5, 0), (3, 2)] 2 = some 5 ∧
      maxMinutesNaive [(5, 0), (3, 2)] 2 = some 8 :=
  ⟨by decide, by decide, by rw [maxMinutesNaive_eq_list]; decide⟩

/-- C3 (counterexample): on the events (2147483647, 1), (1, 1) with budget 2,
`maxMinutesMemo` adds the duration 2147483647 to the result 1 of the recursive
call, which overflows, and returns 1, while `maxMinutesNaive` returns
2147483647; and on the empty sequence with the largest `int` as budget the
width `money + 1` of the table overflows and `maxMinutesMemo` returns no value,
while `maxMinutesNaive` returns 0. -/
theorem maxMinutesMemo_overflow_counterexample :
    NonNeg [(2147483647, 1), (1, 1)] ∧ EventsInRange [(2147483647, 1), (1, 1)] ∧
      maxMinutesMemo [(2147483647, 1), (1, 1)] 2 = some 1 ∧
      maxMinutesNaive [(2147483647, 1), (1, 1)] 2 = some 2147483647 ∧
      maxMinutesMemo [] 2147483647 = none ∧ maxMinutesNaive [] 2147483647 = some 0 :=
  ⟨by decide, by decide,
    by rw [maxMinutesMemo_eq32 _ (by decide) _ (by decide) (by decide)]; decide,
    by rw [maxMinutesNaive_eq_list]; decide, by decide,
    by rw [maxMinutesNaive_eq_list]; decide⟩

/-- C3 (amended): for an event sequence with non-negative `int` durations and
costs and a budget of at least 0 and below the largest `int`, such that no
selection within the budget has a total duration beyond the largest `int`,
`maxMinutesMemo` and `maxMinutesNaive` return the same value; the table of `-1`
entries the wrapper starts from is sound, and every call of the helper on a
sound table of the wrapper's shape returns what the uncached recursion returns
for that (index, money) state and leaves a sound table, so a cached entry is
returned only when it equals the uncached result. -/
theorem maxMinutesMemo_eq_naive (events : List Event) (budget : Int) (hev : NonNeg events)
    (hr : EventsInRange events) (hb : 0 ≤ budget) (hmax : budget < 2147483647)
    (hfit : FitsInt events budget) :
    (∃ m, maxMinutesMemo events budget = some m ∧ maxMinutesNaive events budget = some m) ∧
    CacheSound events (List.replicate events.length (List.replicate (budget + 1).toNat (-1))) ∧
    ∀ (money : Int) (index : Nat) (memo : Grid), 0 ≤ money → money ≤ budget →
      index ≤ events.length → memo.HasShape events.length (budget + 1).toNat →
      CacheSound events memo →
      ∃ r memo2, maxMinutesMemoHelper events money index memo = some (r, memo2) ∧
        maxMinutesNaiveHelper events money 0 index = some r ∧
        memo2.HasShape events.length (budget + 1).toNat ∧ CacheSound events memo2 := by
  have hbv := bestValue_le_of_fitsInt hev budget hb hfit
  have hcosts := costs_of_nonNeg_inRange hev hr
  have hstate : ∀ (i j : Nat), i < events.length → j < (budget + 1).toNat →
      maxMinutesNaiveHelper events (j : Int) 0 i
        = some (bestValue32 (events.drop i) (j : Int)) :=
    fun i j hi hj => maxMinutesNaiveHelper_state events hev hr budget (by omega) hbv i
      (le_of_lt hi) j (by omega) (by omega)
  refine ⟨⟨bestValue events budget, maxMinutesMemo_eq events hev hr budget hb hmax hbv,
    maxMinutesNaive_eq events hev hr budget hb (by omega) hbv⟩,
    replicate_cacheSound events _ _, ?_⟩
  intro money index memo hm hmb hi hs hc
  obtain ⟨memo2, hrec, hs2, hc2⟩ := maxMinutesMemoHelper_eq32 events hcosts (budget + 1).toNat _
    index money memo rfl hi hm (by omega) (by omega) hs (cacheExact_of_sound hstate hs hc)
  exact ⟨_, memo2, hrec,
    maxMinutesNaiveHelper_state events hev hr budget (by omega) hbv index hi money hm hmb,
    hs2, cacheSound_of_exact hstate hs2 hc2⟩

/-- C3 (witness of the amended claim): the event list of the tests with
overlapping states, budget 15. -/
theorem maxMinutesMemo_eq_naive_witness :
    NonNeg [(40, 10), (28, 7), (30, 5), (18, 2), (15, 3), (5, 1)] ∧
      EventsInRange [(40, 10), (28, 7), (30, 5), (18, 2), (15, 3), (5, 1)] ∧
      (0 : Int) ≤ 15 ∧ (15 : Int) < 2147483647 ∧
      FitsInt [(40, 10), (28, 7), (30, 5), (18, 2), (15, 3), (5, 1)] 15 ∧
      ∃ m, maxMinutesMemo [(40, 10), (28, 7), (30, 5), (18, 2), (15, 3), (5, 1)] 15 = some m ∧
        maxMinutesNaive [(40, 10), (28, 7), (30, 5), (18, 2), (15, 3), (5, 1)] 15 = some m :=
  ⟨by decide, by decide, by decide, by decide, fitsInt_of_total (by decide) (by decide) 15,
    (maxMinutesMemo_eq_naive _ _ (by decide) (by decide) (by decide) (by decide)
      (fitsInt_of_total (by decide) (by decide) 15)).1⟩

/-- C4 (counterexample): on the events (10, 1), (1, 1), (1, 1), (2147483637, 1),
raising the budget from 2 to 3 lowers the result of `maxMinutesMemo` from
2147483647 to 2147483639 and the result of `maxMinutesDP` from 2147483647 to 12
(an addition of durations overflows at budget 3); and on the empty sequence,
where both return 0 at budget 0, neither returns a value at the largest `int`
as budget. -/
theorem maxMinutes_monotone_counterexample :
    NonNeg [(10, 1), (1, 1), (1, 1), (2147483637, 1)] ∧
      EventsInRange [(10, 1), (1, 1), (1, 1), (2147483637, 1)] ∧
      maxMinutesMemo [(10, 1), (1, 1), (1, 1), (2147483637, 1)] 2 = some 2147483647 ∧
      maxMinutesMemo [(10, 1), (1, 1), (1, 1), (2147483637, 1)] 3 = some 2147483639 ∧
      maxMinutesDP [(10, 1), (1, 1), (1, 1), (2147483637, 1)] 2 = some 2147483647 ∧
      maxMinutesDP [(10, 1), (1, 1), (1, 1), (2147483637, 1)] 3 = some 12 ∧
      maxMinutesMemo [] 0 = some 0 ∧ maxMinutesMemo [] 2147483647 = none ∧
      maxMinutesDP [] 0 = some 0 ∧ maxMinutesDP [] 2147483647 = none :=
  ⟨by decide, by decide,
    by rw [maxMinutesMemo_eq32 _ (by decide) _ (by decide) (by decide)]; decide,
    by rw [maxMinutesMemo_eq32 _ (by decide) _ (by decide) (by decide)]; decide,
    by rw [maxMinutesDP_eq32 _ (by decide) _ (by decide) (by decide)]; decide,
    by rw [maxMinutesDP_eq32 _ (by decide) _ (by decide) (by decide)]; decide,
    by rw [maxMinutesMemo_eq32 _ (by decide) _ (by decide) (by decide)]; decide,
    by decide, by decide, by decide⟩

/-- C4 (amended): for an event sequence with non-negative `int` durations and
costs and `int` budgets `0 ≤ b1 ≤ b2`, `maxMinutesNaive` returns a value at both
budgets and the value at `b1` is at most the value at `b2`; the same holds of
`maxMinutesMemo` and of `maxMinutesDP` when `b2` is below the largest `int` and
no selection within `b2` has a total duration beyond the largest `int`. -/
theorem maxMinutes_monotone (events : List Event) (b1 b2 : Int) (hev : NonNeg events)
    (hr : EventsInRange events) (h1 : 0 ≤ b1) (h12 : b1 ≤ b2) (hbr : InRange b2) :
    (∃ x y, maxMinutesNaive events b1 = some x ∧ maxMinutesNaive events b2 = some y ∧ x ≤ y) ∧
    (b2 < 2147483647 → FitsInt events b2 →
      (∃ x y, maxMinutesMemo events b1 = some x ∧ maxMinutesMemo events b2 = some y ∧ x ≤ y) ∧
      (∃ x y, maxMinutesDP events b1 = some x ∧ maxMinutesDP events b2 = some y ∧ x ≤ y)) := by
  have h2 : 0 ≤ b2 := le_trans h1 h12
  refine ⟨⟨_, _, maxMinutesNaive_eq_list events b1, maxMinutesNaive_eq_list events b2,
    naiveList_mono (costs_of_nonNeg_inRange hev hr) b1 b2 h1 h12 hbr.2⟩, ?_⟩
  intro hmax hfit
  have hfit1 : FitsInt events b1 := fitsInt_mono h12 hfit
  have hbv1 := bestValue_le_of_fitsInt hev b1 h1 hfit1
  have hbv2 := bestValue_le_of_fitsInt hev b2 h2 hfit
  refine ⟨⟨_, _, maxMinutesMemo_eq events hev hr b1 h1 (by omega) hbv1,
      maxMinutesMemo_eq events hev hr b2 h2 hmax hbv2, bestValue_mono hev b1 b2 h1 h12⟩,
    ⟨_, _, maxMinutesDP_eq events hev b1 h1 (by omega) (dpTable_le_of_fitsInt events hev b1 h1 hfit1),
      maxMinutesDP_eq events hev b2 h2 hmax (dpTable_le_of_fitsInt events hev b2 h2 hfit), ?_⟩⟩
  exact dpTable_mono events hev _ _ _ (by omega)

/-- C4 (witness of the amended claim): budgets 12 and 20 on an event list of
the tests. -/
theorem maxMinutes_monotone_witness :
    NonNeg [(75, 15), (9, 3), (60, 10), (24, 8), (10, 1)] ∧
      EventsInRange [(75, 15), (9, 3), (60, 10), (24, 8), (10, 1)] ∧
      (0 : Int) ≤ 12 ∧ (12 : Int) ≤ 20 ∧ InRange 20 ∧ (20 : Int) < 2147483647 ∧
      FitsInt [(75, 15), (9, 3), (60, 10), (24, 8), (10, 1)] 20 ∧
      (∃ x y, maxMinutesMemo [(75, 15), (9, 3), (60, 10), (24, 8), (10, 1)] 12 = some x ∧
        maxMinutesMemo [(75, 15), (9, 3), (60, 10), (24, 8), (10, 1)] 20 = some y ∧ x ≤ y) ∧
      ∃ x y, maxMinutesDP [(75, 15), (9, 3), (60, 10), (24, 8), (10, 1)] 12 = some x ∧
        maxMinutesDP [(75, 15), (9, 3), (60, 10), (24, 8), (10, 1)] 20 = some y ∧ x ≤ y :=
  ⟨by decide, by decide, by decide, by decide, by decide, by decide,
    fitsInt_of_total (by decide) (by decide) 20,
    (maxMinutes_monotone _ _ _ (by decide) (by decide) (by decide) (by decide) (by decide)).2
      (by decide) (fitsInt_of_total (by decide) (by decide) 20)⟩

/-- C6 (evaluation at the failing input): for the single event (7, 0) and budget
0 the cost is within the budget, `maxMinutesNaive` and `maxMinutesMemo` return
the duration 7, and `maxMinutesDP` returns 0. -/
theorem single_event_zero_cost_divergence :
    maxMinutesDP [(7, 0)] 0 = some 0 ∧ maxMinutesNaive [(7, 0)] 0 = some 7 ∧
      maxMinutesMemo [(7, 0)] 0 = some 7 :=
  ⟨by decide, by rw [maxMinutesNaive_eq_list]; decide,
    by rw [maxMinutesMemo_eq32 _ (by decide) _ (by decide) (by decide)]; decide⟩

/-- C7 (counterexample): on the empty sequence with the largest `int` as budget,
`maxMinutesNaive` returns 0, while the width `money + 1` of the table of
`maxMinutesMemo` and of the array of `maxMinutesDP` overflows and neither
returns a value. -/
theorem maxMinutes_largest_budget_counterexample :
    (0 : Int) ≤ 2147483647 ∧ InRange 2147483647 ∧
      (∀ e ∈ ([] : List Event), 0 ≤ e.1 ∧ 2147483647 < e.2) ∧
      maxMinutesNaive [] 2147483647 = some 0 ∧ maxMinutesMemo [] 2147483647 = none ∧
      maxMinutesDP [] 2147483647 = none :=
  ⟨by decide, by decide, by decide, by rw [maxMinutesNaive_eq_list]; decide, by decide,
    by decide⟩

/-- C7 (amended): for an `int` budget of at least 0 and a sequence of events with
non-negative `int` durations and `int` costs in which every cost is strictly
greater than the budget (the empty sequence included), `maxMinutesNaive`
returns 0, and so do `maxMinutesMemo` and `maxMinutesDP` unless the sequence is
empty and the budget is the largest `int`. -/
theorem maxMinutes_all_too_costly (events : List Event) (budget : Int) (hb : 0 ≤ budget)
    (hbr : InRange budget) (hr : EventsInRange events)
    (hev : ∀ e ∈ events, 0 ≤ e.1 ∧ budget < e.2) :
    maxMinutesNaive events budget = some 0 ∧
      (events ≠ [] ∨ budget < 2147483647 →
        maxMinutesMemo events budget = some 0 ∧ maxMinutesDP events budget = some 0) := by
  have hnn : NonNeg events := fun e he => ⟨(hev e he).1, by have := (hev e he).2; omega⟩
  have hcostly : ∀ e ∈ events, budget < e.2 := fun e he => (hev e he).2
  have hbv : bestValue events budget = 0 := bestValue_of_costly events budget hcostly
  refine ⟨?_, ?_⟩
  · rw [maxMinutesNaive_eq events hnn hr budget hb hbr.2 (by omega), hbv]
  · intro hcase
    have hmax : budget < 2147483647 := by
      rcases hcase with hne | hlt
      · obtain ⟨e, he⟩ := List.exists_mem_of_ne_nil events hne
        have h1 := hcostly e he
        have h2 := (hr e he).2.2
        omega
      · exact hlt
    refine ⟨?_, ?_⟩
    · rw [maxMinutesMemo_eq32 events (costs_of_nonNeg_inRange hnn hr) budget hb hmax,
        bestValue32_of_costly events budget hcostly]
    · rw [maxMinutesDP_eq32 events (fun e he => (hnn e he).2) budget hb hmax]
      refine congrArg some (dpTable32_of_costly events budget.toNat ?_ _ _ le_rfl)
      intro e he
      have := hcostly e he
      omega

/-- C7 (witness of the amended claim): the event list of the tests whose
cheapest event costs 22, budget 20. -/
theorem maxMinutes_all_too_costly_witness :
    (0 : Int) ≤ 20 ∧ InRange 20 ∧
      EventsInRange [(40, 25), (30, 30), (60, 22), (50, 24), (70, 35)] ∧
      (∀ e ∈ [((40 : Int), (25 : Int)), (30, 30), (60, 22), (50, 24), (70, 35)],
        0 ≤ e.1 ∧ 20 < e.2) ∧
      maxMinutesNaive [(40, 25), (30, 30), (60, 22), (50, 24), (70, 35)] 20 = some 0 ∧
      maxMinutesMemo [(40, 25), (30, 30), (60, 22), (50, 24), (70, 35)] 20 = some 0 ∧
      maxMinutesDP [(40, 25), (30, 30), (60, 22), (50, 24), (70, 35)] 20 = some 0 :=
  ⟨by decide, by decide, by decide, by decide,
    (maxMinutes_all_too_costly _ _ (by decide) (by decide) (by decide) (by decide)).1,
    (maxMinutes_all_too_costly _ _ (by decide) (by decide) (by decide) (by decide)).2
      (Or.inl (by decide))⟩

/-- C18 (counterexample): on the empty sequence with the largest `int` as budget
the recurrence gives `dp[0][budget] = 0`, while the array `dp[2][money + 1]` of
`maxMinutesDP` has an overflowed size and no value is returned; and on the
events (2147483647, 1), (1, 1) with budget 2 the recurrence gives
`dp[2][2] = 2147483648`, while the addition overflows in `maxMinutesDP`, which
returns 2147483647. -/
theorem maxMinutesDP_table_counterexample :
    dpTable [] ([] : List Event).length (2147483647 : Int).toNat = 0 ∧
      maxMinutesDP [] 2147483647 = none ∧
      NonNeg [(2147483647, 1), (1, 1)] ∧ EventsInRange [(2147483647, 1), (1, 1)] ∧
      dpTable [(2147483647, 1), (1, 1)] [((2147483647 : Int), (1 : Int)), (1, 1)].length
        (2 : Int).toNat = 2147483648 ∧
      maxMinutesDP [(2147483647, 1), (1, 1)] 2 = some 2147483647 :=
  ⟨by decide, by decide, by decide, by decide, by decide, by decide⟩

/-- C18 (amended): for every event sequence whose costs are non-negative and
every budget of at least 0 and below the largest `int`,
`maxMinutesDP(events, budget)` returns the cell `dp[n][budget]` of the full
table of the recurrence evaluated in `int` arithmetic: `dp[0][j] = 0`,
`dp[i][0] = 0`, and for the `i`-th event (1-based) and `j > 0`, `dp[i][j]` is
`max(dp[i-1][j - cost_i] + value_i, dp[i-1][j])` if `cost_i ≤ j` and
`dp[i-1][j]` otherwise.  When the durations are non-negative and the cell
`dp[n][budget]` of the table in exact arithmetic is at most the largest `int`,
the result is that cell of the table in exact arithmetic. -/
theorem maxMinutesDP_is_table (events : List Event) (budget : Int)
    (hc : ∀ e ∈ events, 0 ≤ e.2) (hb : 0 ≤ budget) (hmax : budget < 2147483647) :
    maxMinutesDP events budget = some (dpTable32 events events.length budget.toNat) ∧
    (∀ j : Nat, dpTable32 events 0 j = 0) ∧ (∀ i : Nat, dpTable32 events i 0 = 0) ∧
    (∀ (i j : Nat) (h : i < events.length), 0 < j →
      dpTable32 events (i + 1) j =
        if events[i].2 ≤ (j : Int) then
          max (wrap32 (dpTable32 events i (wrap32 ((j : Int) - events[i].2)).toNat + events[i].1))
            (dpTable32 events i j)
        else dpTable32 events i j) ∧
    ((∀ e ∈ events, 0 ≤ e.1) → dpTable events events.length budget.toNat ≤ 2147483647 →
      maxMinutesDP events budget = some (dpTable events events.length budget.toNat)) ∧
    (∀ j : Nat, dpTable events 0 j = 0) ∧ (∀ i : Nat, dpTable events i 0 = 0) ∧
    (∀ (i j : Nat) (h : i < events.length), 0 < j →
      dpTable events (i + 1) j =
        if events[i].2 ≤ (j : Int) then
          max (dpTable events i ((j : Int) - events[i].2).toNat + events[i].1)
            (dpTable events i j)
        else dpTable events i j) := by
  refine ⟨maxMinutesDP_eq32 events hc budget hb hmax, fun j => by simp [dpTable32],
    dpTable32_col_zero events, ?_, ?_, fun j => by simp [dpTable], dpTable_col_zero events, ?_⟩
  · intro i j h hj
    rw [dpTable32, if_neg (by omega), List.getElem?_eq_getElem h]
  · intro hd hfit
    exact maxMinutesDP_eq events (fun e he => ⟨hd e he, hc e he⟩) budget hb hmax hfit
  · intro i j h hj
    rw [dpTable, if_neg (by omega), List.getElem?_eq_getElem h]

/-- C18 (witness of the amended claim): the first event list of the tests,
budget 15. -/
theorem maxMinutesDP_is_table_witness :
    (∀ e ∈ [((40 : Int), (10 : Int)), (30, 5), (15, 3), (5, 1)], 0 ≤ e.2) ∧ (0 : Int) ≤ 15 ∧
      (15 : Int) < 2147483647 ∧
      maxMinutesDP [(40, 10), (30, 5), (15, 3), (5, 1)] 15
        = some (dpTable32 [(40, 10), (30, 5), (15, 3), (5, 1)]
            [((40 : Int), (10 : Int)), (30, 5), (15, 3), (5, 1)].length (15 : Int).toNat) ∧
      maxMinutesDP [(40, 10), (30, 5), (15, 3), (5, 1)] 15
        = some (dpTable [(40, 10), (30, 5), (15, 3), (5, 1)]
            [((40 : Int), (10 : Int)), (30, 5), (15, 3), (5, 1)].length (15 : Int).toNat) :=
  ⟨by decide, by decide, by decide,
    (maxMinutesDP_is_table _ _ (by decide) (by decide) (by decide)).1,
    (maxMinutesDP_is_table _ _ (by decide) (by decide) (by decide)).2.2.2.2.1 (by decide)
      (by decide)⟩

/-- C21 (counterexample): the events (2147483647, 1), (1, 1) have non-negative
durations and strictly positive costs, and with budget 2 the largest total
duration within the budget is 2147483648, while `maxMinutesDP` returns
2147483647; and on the empty sequence with the largest `int` as budget the
largest total duration is 0, while `maxMinutesDP` returns no value. -/
theorem maxMinutesDP_overflow_counterexample :
    (∀ e ∈ [((2147483647 : Int), (1 : Int)), (1, 1)], 0 ≤ e.1 ∧ 0 < e.2) ∧
      EventsInRange [(2147483647, 1), (1, 1)] ∧
      IsBest [(2147483647, 1), (1, 1)] 2 2147483648 ∧
      maxMinutesDP [(2147483647, 1), (1, 1)] 2 = some 2147483647 ∧
      IsBest [] 2147483647 0 ∧ maxMinutesDP [] 2147483647 = none := by
  refine ⟨by decide, by decide, ?_, by decide, ?_, by decide⟩
  · have h := bestValue_isBest (show NonNeg [(2147483647, 1), (1, 1)] by decide) 2 (by decide)
    have hv : bestValue [(2147483647, 1), (1, 1)] 2 = 2147483648 := by decide
    rwa [hv] at h
  · exact bestValue_isBest (show NonNeg [] by decide) 2147483647 (by decide)

/-- C21 (amended): for an event sequence with non-negative durations and
strictly positive costs and a budget of at least 0 and below the largest `int`,
such that no selection within the budget has a total duration beyond the
largest `int`, `maxMinutesDP` returns a value, and that value is the largest
total duration among the sub-collections of the events whose total cost is at
most the budget. -/
theorem maxMinutesDP_is_best (events : List Event) (budget : Int)
    (hev : ∀ e ∈ events, 0 ≤ e.1 ∧ 0 < e.2) (hb : 0 ≤ budget) (hmax : budget < 2147483647)
    (hfit : FitsInt events budget) :
    ∃ m, maxMinutesDP events budget = some m ∧ IsBest events budget m := by
  have hnn : NonNeg events := fun e he => ⟨(hev e he).1, le_of_lt (hev e he).2⟩
  have hrev : NonNeg events.reverse := fun e he => hnn e (List.mem_reverse.1 he)
  refine ⟨_, maxMinutesDP_eq events hnn budget hb hmax
    (dpTable_le_of_fitsInt events hnn budget hb hfit), ?_⟩
  rw [dpTable_eq_bestValue events (fun e he => (hev e he).2) events.length le_rfl,
    List.take_length, Int.toNat_of_nonneg hb]
  exact isBest_of_reverse (bestValue_isBest hrev budget hb)

/-- C21 (witness of the amended claim): the second event list of the tests,
budget 50. -/
theorem maxMinutesDP_is_best_witness :
    (∀ e ∈ [((60 : Int), (15 : Int)), (120, 25), (40, 8), (75, 15), (65, 20)],
        0 ≤ e.1 ∧ 0 < e.2) ∧ (0 : Int) ≤ 50 ∧ (50 : Int) < 2147483647 ∧
      FitsInt [(60, 15), (120, 25), (40, 8), (75, 15), (65, 20)] 50 ∧
      ∃ m, maxMinutesDP [(60, 15), (120, 25), (40, 8), (75, 15), (65, 20)] 50 = some m ∧
        IsBest [(60, 15), (120, 25), (40, 8), (75, 15), (65, 20)] 50 m :=
  ⟨by decide, by decide, by decide, fitsInt_of_total (by decide) (by decide) 50,
    maxMinutesDP_is_best _ _ (by decide) (by decide) (by decide)
      (fitsInt_of_total (by decide) (by decide) 50)⟩

end MusicEvents

namespace Modulate

theorem mem_setAdd (s : List String) (x a : String) : a ∈ setAdd s x ↔ a = x ∨ a ∈ s := by
  induction s with
  | nil => simp [setAdd]
  | cons y ys ih =>
    simp only [setAdd]
    split
    · simp
    · split
      · rename_i hxy
        subst hxy
        simp
      · simp only [List.mem_cons, ih]
        tauto

theorem length_setAdd_le (s : List String) (x : String) : (setAdd s x).length ≤ s.length + 1 := by
  induction s with
  | nil => simp [setAdd]
  | cons y ys ih =>
    simp only [setAdd]
    split
    · simp
    · split
      · simp
      · simp only [List.length_cons]; omega

theorem containsMusicalKey_iff (path : List String) (key : String) :
    containsMusicalKey path key = true ↔ key ∈ path := by
  induction path with
  | nil => simp [containsMusicalKey]
  | cons c rest ih =>
    simp only [containsMusicalKey, List.mem_cons]
    split
    · rename_i h; subst h; simp
    · rename_i h
      rw [ih]
      constructor
      · exact Or.inr
      · rintro (h2 | h2)
        · exact absurd h2.symm h
        · exact h2

theorem mem_validKeys (path related valid : List String) (a : String) :
    a ∈ validKeys path related valid ↔ a ∈ valid ∨ (a ∈ related ∧ a ∉ path) := by
  induction related generalizing valid with
  | nil => simp [validKeys]
  | cons k rest ih =>
    simp only [validKeys]
    rw [ih]
    by_cases hk : containsMusicalKey path k = true
    · have hk2 := (containsMusicalKey_iff path k).1 hk
      simp only [hk, Bool.not_true, Bool.false_eq_true, if_false, List.mem_cons]
      constructor
      · rintro (h | h)
        · exact Or.inl h
        · exact Or.inr ⟨Or.inr h.1, h.2⟩
      · rintro (h | ⟨h1 | h1, h2⟩)
        · exact Or.inl h
        · subst h1; exact absurd hk2 h2
        · exact Or.inr ⟨h1, h2⟩
    · have hk2 : k ∉ path := fun h => hk ((containsMusicalKey_iff path k).2 h)
      simp only [Bool.not_eq_true] at hk
      simp only [hk, Bool.not_false, if_true, mem_setAdd, List.mem_cons]
      constructor
      · rintro ((h | h) | h)
        · subst h; exact Or.inr ⟨Or.inl rfl, hk2⟩
        · exact Or.inl h
        · exact Or.inr ⟨Or.inr h.1, h.2⟩
      · rintro (h | ⟨h1 | h1, h2⟩)
        · exact Or.inl (Or.inr h)
        · exact Or.inl (Or.inl h1)
        · exact Or.inr ⟨h1, h2⟩

theorem length_validKeys_le (path related valid : List String) :
    (validKeys path related valid).length ≤ valid.length + related.length := by
  induction related generalizing valid with
  | nil => simp [validKeys]
  | cons k rest ih =>
    simp only [validKeys, List.length_cons]
    refine le_trans (ih _) ?_
    split
    · have := length_setAdd_le valid k; omega
    · omega

theorem addRelated_some (allowed : List Int) (k : Int) (n : String) (related : List String)
    (D : List String) (hn : standardize n ∈ D) (hr : ∀ x ∈ related, x ∈ D) :
    ∃ l, addRelated allowed k (some n) related = some l ∧ (∀ x ∈ l, x ∈ D) ∧
      l.length ≤ related.length + 1 := by
  unfold addRelated
  split
  · refine ⟨_, rfl, ?_, length_setAdd_le _ _⟩
    intro x hx
    rcases (mem_setAdd _ _ _).1 hx with h | h
    · rw [h]; exact hn
    · exact hr x h
  · exact ⟨_, rfl, hr, by omega⟩

theorem relatedKeys_of_candidates (key : String) (allowed : List Int) (t m : String)
    (hs : splitKey key = some (t, m)) (D : List String)
    (hc : ∀ c ∈ candidates t m, ∃ n, c = some n ∧ standardize n ∈ D) :
    ∃ l, relatedKeys key allowed = some l ∧ (∀ x ∈ l, x ∈ D) ∧ l.length ≤ 6 := by
  unfold relatedKeys
  rw [hs]
  simp only
  unfold candidates at hc
  by_cases hm : m = "major"
  · rw [if_pos hm] at hc ⊢
    obtain ⟨n0, h0, d0⟩ := hc (some (t ++ " minor")) (by simp)
    obtain ⟨n1, h1, d1⟩ := hc (keyPlus (indexOf keys t + 2) " minor") (by simp)
    obtain ⟨n2, h2, d2⟩ := hc (keyPlus (indexOf keys t + 4) " minor") (by simp)
    obtain ⟨n3, h3, d3⟩ := hc (keyPlus (indexOf keys t + 5) " major") (by simp)
    obtain ⟨n4, h4, d4⟩ := hc (keyPlus (indexOf keys t + 7) " major") (by simp)
    obtain ⟨n5, h5, d5⟩ := hc (keyPlus (indexOf keys t + 9) " minor") (by simp)
    rw [h1, h2, h3, h4, h5]
    obtain ⟨l0, e0, s0, b0⟩ := addRelated_some allowed 0 n0 [] D d0 (by simp)
    simp only [Option.some.injEq] at h0
    rw [← h0] at e0
    obtain ⟨l1, e1, s1, b1⟩ := addRelated_some allowed 1 n1 l0 D d1 s0
    obtain ⟨l2, e2, s2, b2⟩ := addRelated_some allowed 2 n2 l1 D d2 s1
    obtain ⟨l3, e3, s3, b3⟩ := addRelated_some allowed 3 n3 l2 D d3 s2
    obtain ⟨l4, e4, s4, b4⟩ := addRelated_some allowed 4 n4 l3 D d4 s3
    obtain ⟨l5, e5, s5, b5⟩ := addRelated_some allowed 5 n5 l4 D d5 s4
    refine ⟨l5, ?_, s5, by simp at b0; omega⟩
    rw [e0, Option.some_bind, e1, Option.some_bind, e2, Option.some_bind, e3, Option.some_bind,
      e4, Option.some_bind, e5]
  · rw [if_neg hm] at hc ⊢
    obtain ⟨n0, h0, d0⟩ := hc (some (t ++ " major")) (by simp)
    obtain ⟨n1, h1, d1⟩ := hc (keyPlus (indexOf keys t + (keys.length : Int) - 2) " major") (by simp)
    obtain ⟨n2, h2, d2⟩ := hc (keyPlus (indexOf keys t + (keys.length : Int) - 4) " major") (by simp)
    obtain ⟨n3, h3, d3⟩ := hc (keyPlus (indexOf keys t + (keys.length : Int) - 5) " minor") (by simp)
    obtain ⟨n4, h4, d4⟩ := hc (keyPlus (indexOf keys t + (keys.length : Int) - 7) " minor") (by simp)
    obtain ⟨n5, h5, d5⟩ := hc (keyPlus (indexOf keys t + (keys.length : Int) - 9) " major") (by simp)
    rw [h1, h2, h3, h4, h5]
    obtain ⟨l0, e0, s0, b0⟩ := addRelated_some allowed 0 n0 [] D d0 (by simp)
    simp only [Option.some.injEq] at h0
    rw [← h0] at e0
    obtain ⟨l1, e1, s1, b1⟩ := addRelated_some allowed 1 n1 l0 D d1 s0
    obtain ⟨l2, e2, s2, b2⟩ := addRelated_some allowed 2 n2 l1 D d2 s1
    obtain ⟨l3, e3, s3, b3⟩ := addRelated_some allowed 3 n3 l2 D d3 s2
    obtain ⟨l4, e4, s4, b4⟩ := addRelated_some allowed 4 n4 l3 D d4 s3
    obtain ⟨l5, e5, s5, b5⟩ := addRelated_some allowed 5 n5 l4 D d5 s4
    refine ⟨l5, ?_, s5, by simp at b0; omega⟩
    rw [e0, Option.some_bind, e1, Option.some_bind, e2, Option.some_bind, e3, Option.some_bind,
      e4, Option.some_bind, e5]

theorem relatedKeys_of_displayed (key : String) (allowed : List Int)
    (h : neighboursDisplayed key = true) :
    ∃ l, relatedKeys key allowed = some l ∧ (∀ x ∈ l, x ∈ displayKeys) ∧ l.length ≤ 6 := by
  unfold neighboursDisplayed at h
  cases hs : splitKey key with
  | none => rw [hs] at h; exact absurd h (by simp)
  | some tm =>
    obtain ⟨t, m⟩ := tm
    rw [hs] at h
    simp only [List.all_eq_true] at h
    refine relatedKeys_of_candidates key allowed t m hs displayKeys ?_
    intro c hc
    have := h c hc
    cases c with
    | none => exact absurd this (by simp)
    | some n => exact ⟨n, rfl, by simpa using this⟩

set_option maxRecDepth 100000 in
theorem wellFormed_neighboursDisplayed : ∀ key ∈ wellFormedKeys, neighboursDisplayed key = true := by
  decide

set_option maxRecDepth 100000 in
theorem displayKeys_wellFormed : ∀ key ∈ displayKeys, key ∈ wellFormedKeys := by
  decide

theorem wellFormedKeys_length_ge (key : String) (h : key ∈ wellFormedKeys) :
    ∃ t rest, substr key 0 2 = some t ∧ substrFrom key 2 = some rest := by
  have : ∀ key ∈ wellFormedKeys, 2 ≤ key.data.length := by decide
  have h2 := this key h
  refine ⟨⟨(key.data.drop 0).take 2⟩, ⟨key.data.drop 2⟩, ?_, ?_⟩
  · unfold substr; rw [if_pos (Nat.zero_le _)]
  · unfold substrFrom; rw [if_pos h2]

theorem StackWalk.cons {allowed : List Int} {startKey top key : String} {below : List String}
    (h : StackWalk allowed startKey (top :: below)) (hr : Related allowed top key) :
    StackWalk allowed startKey (key :: top :: below) :=
  ⟨by rw [List.getLast?_cons_cons]; exact h.1, List.Chain'.cons hr h.2⟩

theorem StackWalk.singleton (allowed : List Int) (startKey : String) :
    StackWalk allowed startKey [startKey] :=
  ⟨rfl, List.chain'_singleton _⟩

theorem StackWalk.ne_nil {allowed : List Int} {startKey : String} {w : List String}
    (h : StackWalk allowed startKey w) : w ≠ [] := by
  intro hw
  rw [hw] at h
  exact absurd h.1 (by simp)

theorem singleton_suffix_of_getLast? {w : List String} {s : String}
    (h : w.getLast? = some s) : [s] <:+ w := by
  obtain ⟨l, rfl⟩ : ∃ l, w = l ++ [s] := by
    rcases List.eq_nil_or_concat w with hw | ⟨l, b, hw⟩
    · rw [hw] at h; exact absurd h (by simp)
    · rw [hw, List.concat_eq_append, List.getLast?_concat] at h
      simp only [Option.some.injEq] at h
      exact ⟨l, by rw [hw, h, List.concat_eq_append]⟩
  exact List.suffix_append _ _

/-- A walk that properly extends the path `top :: below` continues with a valid
key: the extension's next key is related to `top` and not on the path. -/
theorem next_key_of_suffix {allowed : List Int} {startKey : String} {w : List String}
    {top : String} {below : List String}
    (hw : StackWalk allowed startKey w) (hnd : w.Nodup) (hs : (top :: below) <:+ w)
    (hne : w ≠ top :: below) :
    ∃ key, Related allowed top key ∧ key ∉ top :: below ∧ (key :: top :: below) <:+ w := by
  obtain ⟨ext, hext⟩ := hs
  rcases List.eq_nil_or_concat ext with h0 | ⟨ext2, key, h1⟩
  · subst h0; exact absurd hext.symm hne
  · rw [List.concat_eq_append] at h1
    subst h1
    have hsuf : (key :: top :: below) <:+ w := ⟨ext2, by rw [← hext]; simp⟩
    have hch := hw.2.suffix hsuf
    have hnd2 := hnd.sublist hsuf.sublist
    exact ⟨key, hch.rel_head, (List.nodup_cons.1 hnd2).1, hsuf⟩

theorem covered_initial (allowed : List Int) (startKey endKey : String) :
    Covered allowed startKey endKey [[startKey]] := by
  intro w hw
  exact ⟨[startKey], List.mem_singleton_self _, singleton_suffix_of_getLast? hw.1.1⟩

theorem lenSorted_initial (startKey : String) : LenSorted [[startKey]] := by
  refine ⟨List.pairwise_singleton _ _, ?_⟩
  intro p hp q hq
  simp only [List.head?_cons, Option.mem_def, Option.some.injEq] at hp
  simp only [List.mem_singleton] at hq
  subst hp hq
  omega

theorem allWalks_initial (allowed : List Int) (startKey : String) :
    AllWalks allowed startKey [[startKey]] := by
  intro q hq
  simp only [List.mem_singleton] at hq
  subst hq
  exact ⟨StackWalk.singleton _ _, List.nodup_singleton _⟩

/-- The queue after one expanding iteration of the loop. -/
theorem lenSorted_step (p : List String) (paths : List (List String)) (valid : List String)
    (h : LenSorted (p :: paths)) :
    LenSorted (paths ++ valid.map (fun key => key :: p)) := by
  obtain ⟨hpw, hhead⟩ := h
  have hhead2 : ∀ q ∈ paths, q.length ≤ p.length + 1 :=
    fun q hq => hhead p rfl q (List.mem_cons_of_mem _ hq)
  have hge : ∀ q ∈ paths, p.length ≤ q.length := (List.pairwise_cons.1 hpw).1
  refine ⟨?_, ?_⟩
  · rw [List.pairwise_append]
    refine ⟨(List.pairwise_cons.1 hpw).2, ?_, ?_⟩
    · rw [List.pairwise_map]
      exact List.pairwise_of_forall (by intro a b; simp)
    · intro a ha b hb
      obtain ⟨k, _, rfl⟩ := List.mem_map.1 hb
      simpa using hhead2 a ha
  · intro p2 hp2 q hq
    have hp2len : p.length ≤ p2.length := by
      cases paths with
      | nil =>
        simp only [List.nil_append] at hp2
        cases valid with
        | nil => simp at hp2
        | cons k ks =>
          simp only [List.map_cons, List.head?_cons, Option.mem_def, Option.some.injEq] at hp2
          subst hp2; simp
      | cons a as =>
        simp only [List.cons_append, List.head?_cons, Option.mem_def, Option.some.injEq] at hp2
        subst hp2
        exact hge _ (List.mem_cons_self _ _)
    rcases List.mem_append.1 hq with hq | hq
    · have := hhead2 q hq; omega
    · obtain ⟨k, _, rfl⟩ := List.mem_map.1 hq
      simp only [List.length_cons]; omega

theorem bfsLoop_result (allowed : List Int) (startKey endKey : String) :
    ∀ (fuel : Nat) (queue : List (List String)) (path : List String),
      Covered allowed startKey endKey queue → LenSorted queue → AllWalks allowed startKey queue →
      modulateBFSLoop endKey allowed fuel queue = Outcome.returned path →
      ShortestOrNone allowed startKey endKey path := by
  intro fuel
  induction fuel with
  | zero =>
    intro queue path hcov _ _ hrun
    cases queue with
    | nil =>
      simp only [modulateBFSLoop, Outcome.returned.injEq] at hrun
      refine Or.inl ⟨hrun.symm, ?_⟩
      intro w hw
      obtain ⟨q, hq, _⟩ := hcov w hw
      exact absurd hq (List.not_mem_nil _)
    | cons p paths => simp [modulateBFSLoop] at hrun
  | succ fuel ih =>
    intro queue path hcov hsorted hwalks hrun
    cases queue with
    | nil =>
      simp only [modulateBFSLoop, Outcome.returned.injEq] at hrun
      refine Or.inl ⟨hrun.symm, ?_⟩
      intro w hw
      obtain ⟨q, hq, _⟩ := hcov w hw
      exact absurd hq (List.not_mem_nil _)
    | cons p paths =>
      rw [modulateBFSLoop] at hrun
      cases he : enharmonicEndKey endKey with
      | none => rw [he] at hrun; simp at hrun
      | some e =>
        rw [he] at hrun
        simp only at hrun
        cases p with
        | nil => simp at hrun
        | cons top below =>
          simp only at hrun
          have hp := hwalks (top :: below) (List.mem_cons_self _ _)
          -- the front path is no longer than any walk to a target
          have hmin : ∀ w, TargetWalk allowed startKey endKey w →
              (top :: below).length ≤ w.length := by
            intro w hw
            obtain ⟨q, hq, hsuf⟩ := hcov w hw
            have h1 := hsuf.length_le
            rcases List.mem_cons.1 hq with hq | hq
            · rw [hq] at h1; exact h1
            · have := (List.pairwise_cons.1 hsorted.1).1 q hq
              omega
          by_cases h1 : top = endKey
          · rw [if_pos h1] at hrun
            simp only [Outcome.returned.injEq] at hrun
            exact Or.inr ⟨top, below, ⟨hp.1, hp.2, top, rfl, Or.inl h1⟩, Or.inl hrun.symm, hmin⟩
          · rw [if_neg h1] at hrun
            by_cases h2 : top = e
            · rw [if_pos h2] at hrun
              simp only [Outcome.returned.injEq] at hrun
              exact Or.inr ⟨top, below, ⟨hp.1, hp.2, top, rfl, Or.inr (by rw [he, h2])⟩,
                Or.inr hrun.symm, hmin⟩
            · rw [if_neg h2] at hrun
              cases hrel : relatedKeys top allowed with
              | none => rw [hrel] at hrun; simp at hrun
              | some related =>
                rw [hrel] at hrun
                simp only at hrun
                refine ih _ path ?_ (lenSorted_step _ _ _ hsorted) ?_ hrun
                · intro w hw
                  obtain ⟨q, hq, hsuf⟩ := hcov w hw
                  rcases List.mem_cons.1 hq with hq | hq
                  · subst hq
                    have hne : w ≠ top :: below := by
                      intro hwp
                      obtain ⟨t, ht, htar⟩ := hw.2.2
                      rw [hwp] at ht
                      simp only [List.head?_cons, Option.some.injEq] at ht
                      subst ht
                      rcases htar with h | h
                      · exact h1 h
                      · rw [he] at h
                        simp only [Option.some.injEq] at h
                        exact h2 h.symm
                    obtain ⟨key, hk1, hk2, hk3⟩ := next_key_of_suffix hw.1 hw.2.1 hsuf hne
                    obtain ⟨l, hl, hkl⟩ := hk1
                    rw [hrel] at hl
                    simp only [Option.some.injEq] at hl
                    subst hl
                    refine ⟨key :: top :: below, List.mem_append_right _ ?_, hk3⟩
                    exact List.mem_map.2 ⟨key, (mem_validKeys _ _ _ _).2 (Or.inr ⟨hkl, hk2⟩), rfl⟩
                  · exact ⟨q, List.mem_append_left _ hq, hsuf⟩
                · intro q hq
                  rcases List.mem_append.1 hq with hq | hq
                  · exact hwalks q (List.mem_cons_of_mem _ hq)
                  · obtain ⟨key, hkey, rfl⟩ := List.mem_map.1 hq
                    rcases (mem_validKeys _ _ _ _).1 hkey with hk | hk
                    · exact absurd hk (List.not_mem_nil _)
                    · exact ⟨hp.1.cons ⟨related, hrel, hk.1⟩, List.nodup_cons.2 ⟨hk.2, hp.2⟩⟩

theorem modulateBFS_result (allowed : List Int) (startKey endKey : String) (fuel : Nat)
    (path : List String) (h : modulateBFS fuel startKey endKey allowed = Outcome.returned path) :
    ShortestOrNone allowed startKey endKey path :=
  bfsLoop_result allowed startKey endKey fuel _ path (covered_initial _ _ _)
    (lenSorted_initial _) (allWalks_initial _ _) h

theorem domClosed_of_wellFormed (allowed : List Int) (startKey : String)
    (hs : WellFormed startKey) : DomClosed allowed (startKey :: displayKeys) := by
  intro k hk
  have hwf : k ∈ wellFormedKeys := by
    rcases List.mem_cons.1 hk with h | h
    · rw [h]; exact hs
    · exact displayKeys_wellFormed k h
  obtain ⟨l, hl, hsub, hlen⟩ :=
    relatedKeys_of_displayed k allowed (wellFormed_neighboursDisplayed k hwf)
  exact ⟨l, hl, fun x hx => List.mem_cons_of_mem _ (hsub x hx), hlen⟩

theorem length_le_of_nodup_subset {q dom : List String} (hnd : q.Nodup)
    (hsub : ∀ k ∈ q, k ∈ dom) : q.length ≤ dom.length :=
  (List.subperm_of_subset hnd hsub).length_le

theorem sum_map_const (l : List String) (c : Nat) : (l.map (fun _ => c)).sum = l.length * c := by
  induction l with
  | nil => simp
  | cons a l ih => simp only [List.map_cons, List.sum_cons, ih, List.length_cons]; ring

theorem StackWalk.subset_dom {allowed : List Int} {startKey : String} {dom : List String}
    (hclosed : DomClosed allowed dom) (hstart : startKey ∈ dom) :
    ∀ w, StackWalk allowed startKey w → ∀ k ∈ w, k ∈ dom := by
  intro w
  induction w with
  | nil => intro _ k hk; exact absurd hk (List.not_mem_nil _)
  | cons x rest ih =>
    intro hw k hk
    cases rest with
    | nil =>
      have h1 := hw.1
      simp only [List.getLast?_singleton, Option.some.injEq] at h1
      simp only [List.mem_singleton] at hk
      rw [hk, h1]; exact hstart
    | cons y rest2 =>
      have hrest : StackWalk allowed startKey (y :: rest2) :=
        ⟨by have := hw.1; rwa [List.getLast?_cons_cons] at this, (List.chain'_cons.1 hw.2).2⟩
      rcases List.mem_cons.1 hk with h | h
      · obtain ⟨l, hl, hxl⟩ := (List.chain'_cons.1 hw.2).1
        obtain ⟨l2, hl2, hsub, _⟩ := hclosed y (ih hrest y (List.mem_cons_self _ _))
        rw [hl] at hl2
        simp only [Option.some.injEq] at hl2
        subst hl2
        rw [h]; exact hsub x hxl
      · exact ih hrest k h

theorem bfsLoop_terminates (allowed : List Int) (endKey e : String) (dom : List String)
    (he : enharmonicEndKey endKey = some e) (hclosed : DomClosed allowed dom) :
    ∀ (fuel : Nat) (queue : List (List String)),
      (∀ q ∈ queue, q ≠ [] ∧ q.Nodup ∧ ∀ k ∈ q, k ∈ dom) →
      (queue.map (fun q => 7 ^ (dom.length - q.length))).sum ≤ fuel →
      ∃ path, modulateBFSLoop endKey allowed fuel queue = Outcome.returned path := by
  intro fuel
  induction fuel with
  | zero =>
    intro queue _ hsum
    cases queue with
    | nil => exact ⟨[], by simp [modulateBFSLoop]⟩
    | cons p paths =>
      exfalso
      simp only [List.map_cons, List.sum_cons] at hsum
      have : 0 < 7 ^ (dom.length - p.length) := Nat.pow_pos (by omega)
      omega
  | succ fuel ih =>
    intro queue hinv hsum
    cases queue with
    | nil => exact ⟨[], by simp [modulateBFSLoop]⟩
    | cons p paths =>
      cases p with
      | nil => exact absurd rfl (hinv [] (List.mem_cons_self _ _)).1
      | cons top below =>
        obtain ⟨_, hnd, hdom⟩ := hinv (top :: below) (List.mem_cons_self _ _)
        rw [modulateBFSLoop, he]
        simp only
        by_cases h1 : top = endKey
        · rw [if_pos h1]; exact ⟨_, rfl⟩
        · rw [if_neg h1]
          by_cases h2 : top = e
          · rw [if_pos h2]; exact ⟨_, rfl⟩
          · rw [if_neg h2]
            obtain ⟨related, hrel, hsub, hlen⟩ := hclosed top (hdom top (List.mem_cons_self _ _))
            rw [hrel]
            simp only
            have hchild : ∀ key ∈ validKeys (top :: below) related [],
                (key :: top :: below).Nodup ∧ ∀ k ∈ key :: top :: below, k ∈ dom := by
              intro key hkey
              rcases (mem_validKeys _ _ _ _).1 hkey with hk | hk
              · exact absurd hk (List.not_mem_nil _)
              · refine ⟨List.nodup_cons.2 ⟨hk.2, hnd⟩, ?_⟩
                intro k hk2
                rcases List.mem_cons.1 hk2 with h | h
                · rw [h]; exact hsub key hk.1
                · exact hdom k h
            apply ih
            · intro q hq
              rcases List.mem_append.1 hq with hq | hq
              · exact hinv q (List.mem_cons_of_mem _ hq)
              · obtain ⟨key, hkey, rfl⟩ := List.mem_map.1 hq
                exact ⟨List.cons_ne_nil _ _, hchild key hkey⟩
            · simp only [List.map_cons, List.sum_cons, List.length_cons] at hsum
              simp only [List.map_append, List.sum_append, List.map_map, Function.comp_def,
                List.length_cons]
              rw [sum_map_const]
              have hvlen : (validKeys (top :: below) related []).length ≤ 6 := by
                have := length_validKeys_le (top :: below) related []
                simp only [List.length_nil, Nat.zero_add] at this
                omega
              have hcpos : 0 < 7 ^ (dom.length - (below.length + 1 + 1)) := Nat.pow_pos (by omega)
              have hppos : 0 < 7 ^ (dom.length - (below.length + 1)) := Nat.pow_pos (by omega)
              have hkey : (validKeys (top :: below) related []).length
                  * 7 ^ (dom.length - (below.length + 1 + 1)) + 1
                  ≤ 7 ^ (dom.length - (below.length + 1)) := by
                cases hv : validKeys (top :: below) related [] with
                | nil => simp only [List.length_nil, Nat.zero_mul]; omega
                | cons key ks =>
                  have hmem : key ∈ validKeys (top :: below) related [] := by
                    rw [hv]; exact List.mem_cons_self _ _
                  obtain ⟨hnd2, hdom2⟩ := hchild key hmem
                  have hlen2 := length_le_of_nodup_subset hnd2 hdom2
                  simp only [List.length_cons] at hlen2
                  have hsplit : dom.length - (below.length + 1)
                      = (dom.length - (below.length + 1 + 1)) + 1 := by omega
                  rw [hsplit, pow_succ]
                  rw [hv] at hvlen
                  have := Nat.mul_le_mul_right (7 ^ (dom.length - (below.length + 1 + 1))) hvlen
                  omega
              omega

theorem modulateBFS_terminates (allowed : List Int) (startKey endKey : String)
    (hs : WellFormed startKey) (he : WellFormed endKey) :
    ∃ path, modulateBFS (7 ^ 24) startKey endKey allowed = Outcome.returned path := by
  obtain ⟨t, rest, h1, h2⟩ := wellFormedKeys_length_ge endKey he
  have henh : enharmonicEndKey endKey = some (mapGet enharmonics t ++ rest) := by
    unfold enharmonicEndKey; rw [h1, h2]
  apply bfsLoop_terminates allowed endKey _ (startKey :: displayKeys) henh
    (domClosed_of_wellFormed allowed startKey hs)
  · intro q hq
    simp only [List.mem_singleton] at hq
    subst hq
    exact ⟨List.cons_ne_nil _ _, List.nodup_singleton _, fun k hk => by
      simp only [List.mem_singleton] at hk; rw [hk]; exact List.mem_cons_self _ _⟩
  · have : displayKeys.length = 24 := by decide
    simp [this]

theorem exists_nodup_walk (allowed : List Int) (startKey : String) :
    ∀ p, StackWalk allowed startKey p →
      ∃ p2, StackWalk allowed startKey p2 ∧ p2.Nodup ∧ p2.head? = p.head? ∧
        p2.length ≤ p.length := by
  intro p
  induction p with
  | nil => intro h; exact absurd rfl h.ne_nil
  | cons x rest ih =>
    intro hw
    cases rest with
    | nil => exact ⟨[x], hw, List.nodup_singleton _, rfl, le_rfl⟩
    | cons y rest2 =>
      have hrest : StackWalk allowed startKey (y :: rest2) :=
        ⟨by have := hw.1; rwa [List.getLast?_cons_cons] at this, (List.chain'_cons.1 hw.2).2⟩
      have hxy : Related allowed y x := (List.chain'_cons.1 hw.2).1
      obtain ⟨r, hr, hnd, hhead, hlen⟩ := ih hrest
      by_cases hx : x ∈ r
      · obtain ⟨u, v, huv⟩ := List.append_of_mem hx
        have hsuf : (x :: v) <:+ r := ⟨u, huv.symm⟩
        refine ⟨x :: v, ⟨?_, hr.2.suffix hsuf⟩, hnd.sublist hsuf.sublist, rfl, ?_⟩
        · rw [← hr.1, huv, List.getLast?_append_cons]
        · have := hsuf.length_le
          simp only [List.length_cons] at this hlen ⊢
          omega
      · cases r with
        | nil => exact absurd rfl hr.ne_nil
        | cons y2 r2 =>
          simp only [List.head?_cons, Option.some.injEq] at hhead
          subst hhead
          refine ⟨x :: y2 :: r2, hr.cons hxy, List.nodup_cons.2 ⟨hx, hnd⟩, rfl, ?_⟩
          simp only [List.length_cons] at hlen ⊢
          omega

theorem targetWalk_of_route {allowed : List Int} {startKey endKey : String} {route : List String}
    (h : IsRoute allowed startKey endKey route) :
    ∃ w, TargetWalk allowed startKey endKey w ∧ w.length ≤ route.length := by
  obtain ⟨hhead, hchain, last, hlast, htar⟩ := h
  have hw : StackWalk allowed startKey route.reverse := by
    refine ⟨by rw [List.getLast?_reverse]; exact hhead, ?_⟩
    rw [List.chain'_reverse]
    exact hchain
  obtain ⟨p2, hp2, hnd, hhd, hlen⟩ := exists_nodup_walk allowed startKey _ hw
  refine ⟨p2, ⟨hp2, hnd, last, ?_, htar⟩, by simpa using hlen⟩
  rw [hhd, List.head?_reverse]
  exact hlast

theorem route_of_targetWalk {allowed : List Int} {startKey endKey : String} {w : List String}
    (h : TargetWalk allowed startKey endKey w) : IsRoute allowed startKey endKey w.reverse := by
  obtain ⟨hw, _, top, htop, htar⟩ := h
  refine ⟨by rw [List.head?_reverse]; exact hw.1, ?_, top, by rw [List.getLast?_reverse]; exact htop,
    htar⟩
  rw [List.chain'_reverse]
  exact hw.2

theorem shortestOrNone_length_eq {allowed : List Int} {startKey endKey : String}
    {p q : List String} (hp : ShortestOrNone allowed startKey endKey p)
    (hq : ShortestOrNone allowed startKey endKey q) : p.length = q.length := by
  rcases hp with ⟨hp1, hp2⟩ | ⟨t1, b1, hw1, hp1, hmin1⟩
  · rcases hq with ⟨hq1, _⟩ | ⟨t2, b2, hw2, _, _⟩
    · rw [hp1, hq1]
    · exact absurd hw2 (hp2 _)
  · rcases hq with ⟨_, hq2⟩ | ⟨t2, b2, hw2, hq1, hmin2⟩
    · exact absurd hw1 (hq2 _)
    · have h1 := hmin1 _ hw2
      have h2 := hmin2 _ hw1
      have hpl : p.length = (t1 :: b1).length := by rcases hp1 with h | h <;> simp [h]
      have hql : q.length = (t2 :: b2).length := by rcases hq1 with h | h <;> simp [h]
      omega

theorem dfsLoop_spec (allowed : List Int) (startKey endKey : String) (n : Nat)
    (cur : List String)
    (search : List String → List String → Option (Bool × List String × List String))
    (hsearch : ∀ best key, key ∉ cur → (∃ top, cur.head? = some top ∧ Related allowed top key) →
      ∃ r, search best (key :: cur) = some r ∧ DFSSpec allowed startKey endKey n best (key :: cur) r) :
    ∀ (ks : List String) (best : List String),
      (∀ key ∈ ks, key ∉ cur ∧ ∃ top, cur.head? = some top ∧ Related allowed top key) →
      ∃ r, dfsLoop search ks best cur = some r ∧
        (r.1 = false → r.2.1 = best ∧ r.2.2 = cur ∧
          ∀ key ∈ ks, ¬ Extends allowed startKey endKey (key :: cur) n) ∧
        (r.1 = true → ∃ key ∈ ks, ∃ ext : List String, ext.length < n ∧
          TargetWalk allowed startKey endKey (ext ++ key :: cur) ∧ r.2.2 = ext ++ key :: cur ∧
          r.2.1 = endKey :: (ext ++ key :: cur).tail) := by
  intro ks
  induction ks with
  | nil =>
    intro best _
    refine ⟨(false, best, cur), rfl, ?_, ?_⟩
    · intro _; exact ⟨rfl, rfl, fun key hk => absurd hk (List.not_mem_nil _)⟩
    · intro h; exact absurd h (by simp)
  | cons key rest ih =>
    intro best hks
    obtain ⟨hk1, hk2⟩ := hks key (List.mem_cons_self _ _)
    obtain ⟨r, hr, hfalse, htrue⟩ := hsearch best key hk1 hk2
    obtain ⟨b, best2, cur2⟩ := r
    rw [dfsLoop, hr]
    cases b with
    | true =>
      simp only
      refine ⟨(true, best2, cur2), rfl, fun h => absurd h (by simp), ?_⟩
      intro _
      obtain ⟨ext, h1, h2, h3, h4⟩ := htrue rfl
      exact ⟨key, List.mem_cons_self _ _, ext, h1, h2, h3, h4⟩
    | false =>
      simp only
      obtain ⟨h1, h2, h3⟩ := hfalse rfl
      simp only at h1 h2
      subst h1 h2
      simp only
      obtain ⟨r2, hr2, hfalse2, htrue2⟩ :=
        ih best2 (fun k hk => hks k (List.mem_cons_of_mem _ hk))
      refine ⟨r2, hr2, ?_, ?_⟩
      · intro hb
        obtain ⟨g1, g2, g3⟩ := hfalse2 hb
        refine ⟨g1, g2, ?_⟩
        intro k hk
        rcases List.mem_cons.1 hk with h | h
        · rw [h]; exact h3
        · exact g3 k h
      · intro hb
        obtain ⟨k, hk, rest2⟩ := htrue2 hb
        exact ⟨k, List.mem_cons_of_mem _ hk, rest2⟩

theorem dfsDepth_spec (allowed : List Int) (startKey endKey e : String) (dom : List String)
    (he : enharmonicEndKey endKey = some e) (hclosed : DomClosed allowed dom)
    (hstart : startKey ∈ dom) :
    ∀ (n : Nat) (best cur : List String), StackWalk allowed startKey cur → cur.Nodup →
      ∃ r, modulateDFSDepth endKey allowed n best cur = some r ∧
        DFSSpec allowed startKey endKey n best cur r := by
  intro n
  induction n with
  | zero =>
    intro best cur _ _
    refine ⟨(false, best, cur), by simp [modulateDFSDepth], ?_, fun h => absurd h (by simp)⟩
    intro _
    refine ⟨rfl, rfl, ?_⟩
    rintro ⟨ext, hlen, _⟩
    exact absurd hlen (Nat.not_lt_zero _)
  | succ n ih =>
    intro best cur hw hnd
    cases cur with
    | nil => exact absurd rfl hw.ne_nil
    | cons top below =>
      rw [modulateDFSDepth, he]
      simp only
      by_cases htar : top = endKey ∨ top = e
      · rw [if_pos htar]
        refine ⟨_, rfl, fun h => absurd h (by simp), ?_⟩
        intro _
        refine ⟨[], Nat.succ_pos _, ⟨hw, hnd, top, rfl, ?_⟩, rfl, rfl⟩
        rcases htar with h | h
        · exact Or.inl h
        · exact Or.inr (by rw [he, h])
      · rw [if_neg htar]
        obtain ⟨related, hrel, _, _⟩ :=
          hclosed top (hw.subset_dom hclosed hstart _ top (List.mem_cons_self _ _))
        rw [hrel]
        simp only
        have hvalid : ∀ key ∈ validKeys (top :: below) related [],
            key ∉ top :: below ∧ ∃ t, (top :: below).head? = some t ∧ Related allowed t key := by
          intro key hkey
          rcases (mem_validKeys _ _ _ _).1 hkey with hk | hk
          · exact absurd hk (List.not_mem_nil _)
          · exact ⟨hk.2, top, rfl, related, hrel, hk.1⟩
        obtain ⟨r, hr, hfalse, htrue⟩ := dfsLoop_spec allowed startKey endKey n (top :: below)
          (modulateDFSDepth endKey allowed n)
          (by
            intro best2 key hk1 hk2
            obtain ⟨t, ht, hrelated⟩ := hk2
            simp only [List.head?_cons, Option.some.injEq] at ht
            subst ht
            exact ih best2 (key :: top :: below) (hw.cons hrelated) (List.nodup_cons.2 ⟨hk1, hnd⟩))
          (validKeys (top :: below) related []) best hvalid
        refine ⟨r, hr, ?_, ?_⟩
        · intro hb
          obtain ⟨g1, g2, g3⟩ := hfalse hb
          refine ⟨g1, g2, ?_⟩
          rintro ⟨ext, hlen, hext⟩
          have hsuf : (top :: below) <:+ ext ++ top :: below := List.suffix_append _ _
          by_cases hnil : ext = []
          · subst hnil
            obtain ⟨t, ht, htt⟩ := hext.2.2
            simp only [List.nil_append, List.head?_cons, Option.some.injEq] at ht
            subst ht
            apply htar
            rcases htt with h | h
            · exact Or.inl h
            · rw [he] at h
              simp only [Option.some.injEq] at h
              exact Or.inr h.symm
          · have hne : ext ++ top :: below ≠ top :: below := by
              intro h
              apply hnil
              have := congrArg List.length h
              simp only [List.length_append, List.length_cons] at this
              exact List.length_eq_zero.1 (by omega)
            obtain ⟨key, hk1, hk2, ext2, hk3⟩ := next_key_of_suffix hext.1 hext.2.1 hsuf hne
            obtain ⟨l, hl, hkl⟩ := hk1
            rw [hrel] at hl
            simp only [Option.some.injEq] at hl
            subst hl
            apply g3 key ((mem_validKeys _ _ _ _).2 (Or.inr ⟨hkl, hk2⟩))
            refine ⟨ext2, ?_, by rw [hk3]; exact hext⟩
            have := congrArg List.length hk3
            simp only [List.length_append, List.length_cons] at this
            omega
        · intro hb
          obtain ⟨key, _, ext, h1, h2, h3, h4⟩ := htrue hb
          refine ⟨ext ++ [key], by simp only [List.length_append, List.length_singleton]; omega,
            ?_, ?_, ?_⟩
          · simpa using h2
          · simpa using h3
          · simpa using h4

theorem deepen_spec (allowed : List Int) (startKey endKey e : String) (dom : List String)
    (he : enharmonicEndKey endKey = some e) (hclosed : DomClosed allowed dom)
    (hstart : startKey ∈ dom) :
    ∀ (m i : Nat) (best : List String), ¬ Extends allowed startKey endKey [startKey] i →
      ∃ q, deepen startKey endKey allowed (List.range' i m) best [startKey] = some q ∧
        ((q = [] ∧ ¬ Extends allowed startKey endKey [startKey] (i + m)) ∨
         (∃ top below, TargetWalk allowed startKey endKey (top :: below) ∧ q = endKey :: below ∧
            ∀ w, TargetWalk allowed startKey endKey w → (top :: below).length ≤ w.length)) := by
  intro m
  induction m with
  | zero =>
    intro i best hno
    exact ⟨[], by simp [deepen], Or.inl ⟨rfl, hno⟩⟩
  | succ m ih =>
    intro i best hno
    have hcast : ((i : Int) + 1).toNat = i + 1 := by omega
    obtain ⟨r, hr, hfalse, htrue⟩ := dfsDepth_spec allowed startKey endKey e dom he hclosed hstart
      (i + 1) best [startKey] (StackWalk.singleton _ _) (List.nodup_singleton _)
    obtain ⟨b, best2, cur2⟩ := r
    rw [List.range'_succ, deepen, modulateDFSHelper, hcast, hr]
    cases b with
    | true =>
      simp only
      obtain ⟨ext, hlen, hwalk, _, hbest⟩ := htrue rfl
      simp only at hbest
      cases hsplit : ext ++ [startKey] with
      | nil => exact absurd hsplit (by simp)
      | cons top below =>
        rw [hsplit] at hwalk hbest
        refine ⟨best2, rfl, Or.inr ⟨top, below, hwalk, hbest, ?_⟩⟩
        intro w hw
        obtain ⟨extw, hextw⟩ := singleton_suffix_of_getLast? hw.1.1
        have hge : ¬ extw.length < i := fun h => hno ⟨extw, h, by rw [hextw]; exact hw⟩
        have h1 := congrArg List.length hextw
        have h2 := congrArg List.length hsplit
        simp only [List.length_append, List.length_singleton, List.length_cons] at h1 h2 ⊢
        omega
    | false =>
      simp only
      obtain ⟨h1, h2, h3⟩ := hfalse rfl
      simp only at h1 h2
      subst h1 h2
      obtain ⟨q, hq, hres⟩ := ih (i + 1) best2 h3
      refine ⟨q, hq, ?_⟩
      rcases hres with ⟨g1, g2⟩ | g
      · exact Or.inl ⟨g1, by rwa [Nat.add_assoc, Nat.add_comm 1 m] at g2⟩
      · exact Or.inr g

theorem modulateDFS_result (allowed : List Int) (startKey endKey : String)
    (hs : WellFormed startKey) (he : WellFormed endKey) :
    ∃ q, modulateDFS startKey endKey allowed = some q ∧
      ShortestOrNone allowed startKey endKey q := by
  obtain ⟨t, rest, h1, h2⟩ := wellFormedKeys_length_ge endKey he
  have henh : enharmonicEndKey endKey = some (mapGet enharmonics t ++ rest) := by
    unfold enharmonicEndKey; rw [h1, h2]
  have hclosed := domClosed_of_wellFormed allowed startKey hs
  have hstart : startKey ∈ startKey :: displayKeys := List.mem_cons_self _ _
  obtain ⟨q, hq, hres⟩ := deepen_spec allowed startKey endKey _ _ henh hclosed hstart 25 0 []
    (by rintro ⟨ext, hlen, _⟩; exact absurd hlen (Nat.not_lt_zero _))
  refine ⟨q, by rw [modulateDFS, List.range_eq_range']; exact hq, ?_⟩
  rcases hres with ⟨g1, g2⟩ | ⟨top, below, hw, hqe, hmin⟩
  · refine Or.inl ⟨g1, ?_⟩
    intro w hw
    apply g2
    obtain ⟨extw, hextw⟩ := singleton_suffix_of_getLast? hw.1.1
    refine ⟨extw, ?_, by rw [hextw]; exact hw⟩
    have hlen := length_le_of_nodup_subset hw.2.1 (hw.1.subset_dom hclosed hstart w)
    have hd : displayKeys.length = 24 := by decide
    have h3 := congrArg List.length hextw
    simp only [List.length_append, List.length_singleton, List.length_cons, hd] at h3 hlen
    omega
  · exact Or.inr ⟨top, below, hw, Or.inr hqe, hmin⟩

/-- C8: for well-formed start and end keys and any allowed set, `modulateBFS`
returns within `7 ^ 24` iterations, and whenever it returns a non-empty path,
every sequence of keys that starts at `startKey`, moves at each step to a member
of `relatedKeys` of the previous key, and ends at `endKey` or at the string
`enharmonicEndKey` builds from it, has at least as many keys as that path. -/
theorem modulateBFS_shortest (startKey endKey : String) (allowed : List Int)
    (hs : WellFormed startKey) (he : WellFormed endKey) :
    (∃ path, modulateBFS (7 ^ 24) startKey endKey allowed = Outcome.returned path) ∧
    ∀ (fuel : Nat) (path : List String),
      modulateBFS fuel startKey endKey allowed = Outcome.returned path → path ≠ [] →
      ∀ route, IsRoute allowed startKey endKey route → path.length ≤ route.length := by
  refine ⟨modulateBFS_terminates allowed startKey endKey hs he, ?_⟩
  intro fuel path hrun hne route hroute
  obtain ⟨w, hw, hlen⟩ := targetWalk_of_route hroute
  rcases modulateBFS_result allowed startKey endKey fuel path hrun with ⟨h, _⟩ | ⟨t, b, _, hp, hmin⟩
  · exact absurd h hne
  · have h1 := hmin w hw
    have hpl : path.length = (t :: b).length := by rcases hp with h | h <;> simp [h]
    omega

/-- C8 (witness): from `C major` to `A minor` with all six relations the search
returns two keys, and every route has at least two keys. -/
theorem modulateBFS_shortest_witness :
    WellFormed "C major" ∧ WellFormed "A minor" ∧
      modulateBFS 12 "C major" "A minor" [0, 1, 2, 3, 4, 5]
        = Outcome.returned ["A minor", "C major"] ∧
      ∀ route, IsRoute [0, 1, 2, 3, 4, 5] "C major" "A minor" route →
        ["A minor", "C major"].length ≤ route.length :=
  ⟨by decide, by decide, by decide,
    (modulateBFS_shortest "C major" "A minor" [0, 1, 2, 3, 4, 5] (by decide) (by decide)).2 12
      ["A minor", "C major"] (by decide) (by decide)⟩

/-- C9: for well-formed start and end keys and any allowed set, `modulateDFS`
returns a path, `modulateBFS` returns a path within `7 ^ 24` iterations, and
every path `modulateBFS` returns has as many keys as the path of `modulateDFS`
(both empty, or both non-empty of equal length). -/
theorem modulateBFS_DFS_same_length (startKey endKey : String) (allowed : List Int)
    (hs : WellFormed startKey) (he : WellFormed endKey) :
    ∃ q, modulateDFS startKey endKey allowed = some q ∧
      (∃ p, modulateBFS (7 ^ 24) startKey endKey allowed = Outcome.returned p) ∧
      ∀ (fuel : Nat) (p : List String),
        modulateBFS fuel startKey endKey allowed = Outcome.returned p → p.length = q.length := by
  obtain ⟨q, hq, hres⟩ := modulateDFS_result allowed startKey endKey hs he
  refine ⟨q, hq, modulateBFS_terminates allowed startKey endKey hs he, ?_⟩
  intro fuel p hrun
  exact shortestOrNone_length_eq (modulateBFS_result allowed startKey endKey fuel p hrun) hres

/-- C9 (witness): the two searches from `Db major` to `A minor` with relations 3
and 5. -/
theorem modulateBFS_DFS_same_length_witness :
    WellFormed "Db major" ∧ WellFormed "A minor" ∧
      ∃ q, modulateDFS "Db major" "A minor" [3, 5] = some q ∧
        (∃ p, modulateBFS (7 ^ 24) "Db major" "A minor" [3, 5] = Outcome.returned p) ∧
        ∀ (fuel : Nat) (p : List String),
          modulateBFS fuel "Db major" "A minor" [3, 5] = Outcome.returned p →
          p.length = q.length :=
  ⟨by decide, by decide,
    modulateBFS_DFS_same_length "Db major" "A minor" [3, 5] (by decide) (by decide)⟩

/-- C10 (evaluation at the failing input): start key `Bb minor` and end key
`A# major` are both in the documented format, `relatedKeys("Bb minor", {0})`
contains `Bb major`, which denotes the pitch class and modality of `A# major`
(position 1 of `keys`, major), and yet `modulateBFS("Bb minor", "A# major", {0})`
returns the empty path. -/
theorem modulateBFS_misses_sharp_endKey :
    WellFormed "Bb minor" ∧ WellFormed "A# major" ∧
      List.Chain' (Related [0]) ["Bb minor", "Bb major"] ∧
      pitchOf "Bb major" = pitchOf "A# major" ∧ pitchOf "A# major" = some (1, "major") ∧
      modulateBFS 3 "Bb minor" "A# major" [0] = Outcome.returned [] := by
  refine ⟨by decide, by decide, ?_, by decide, by decide, by decide⟩
  simp only [List.chain'_cons, List.chain'_singleton, and_true]
  exact ⟨["Bb major"], by decide, by decide⟩

/-- What the empty result of `modulateBFS` means on strings: for well-formed
start and end keys the search returns within `7 ^ 24` iterations, and it returns
the empty path if and only if no sequence of `relatedKeys` steps leads from the
start key to a key that is, as a string, `endKey` itself or the string
`enharmonicEndKey` builds from `endKey`. -/
theorem modulateBFS_empty_iff (startKey endKey : String) (allowed : List Int)
    (hs : WellFormed startKey) (he : WellFormed endKey) :
    (∃ path, modulateBFS (7 ^ 24) startKey endKey allowed = Outcome.returned path) ∧
    ((∃ fuel, modulateBFS fuel startKey endKey allowed = Outcome.returned []) ↔
      ¬ ∃ route, IsRoute allowed startKey endKey route) := by
  refine ⟨modulateBFS_terminates allowed startKey endKey hs he, ?_, ?_⟩
  · rintro ⟨fuel, hrun⟩ ⟨route, hroute⟩
    obtain ⟨w, hw, _⟩ := targetWalk_of_route hroute
    rcases modulateBFS_result allowed startKey endKey fuel [] hrun with ⟨_, h⟩ | ⟨t, b, _, hp, _⟩
    · exact h w hw
    · rcases hp with h | h <;> exact absurd h (by simp)
  · intro hno
    obtain ⟨path, hrun⟩ := modulateBFS_terminates allowed startKey endKey hs he
    rcases modulateBFS_result allowed startKey endKey _ path hrun with ⟨h, _⟩ | ⟨t, b, hw, _, _⟩
    · exact ⟨_, by rw [← h]; exact hrun⟩
    · exact absurd ⟨_, route_of_targetWalk hw⟩ hno

theorem searchPath_singleton (allowed : List Int) (startKey endKey : String) :
    SearchPath allowed startKey endKey [startKey] :=
  ⟨StackWalk.singleton _ _, List.nodup_singleton _, fun _ hk => absurd hk (List.not_mem_nil _)⟩

theorem searchPath_ne_nil {allowed : List Int} {startKey endKey : String} {path : List String}
    (h : SearchPath allowed startKey endKey path) : path ≠ [] := StackWalk.ne_nil h.1

/-- A path whose top is no target grows by a valid key into a path of the same kind. -/
theorem searchPath_cons {allowed : List Int} {startKey endKey top key : String}
    {below related : List String} (h : SearchPath allowed startKey endKey (top :: below))
    (htop : ¬ IsTarget endKey top) (hrel : relatedKeys top allowed = some related)
    (hkey : key ∈ validKeys (top :: below) related []) :
    SearchPath allowed startKey endKey (key :: top :: below) := by
  rcases (mem_validKeys _ _ _ _).1 hkey with hk | hk
  · exact absurd hk (List.not_mem_nil _)
  · refine ⟨h.1.cons ⟨related, hrel, hk.1⟩, List.nodup_cons.2 ⟨hk.2, h.2.1⟩, ?_⟩
    intro k hk2
    simp only [List.tail_cons] at hk2
    rcases List.mem_cons.1 hk2 with h2 | h2
    · rw [h2]; exact htop
    · exact h.2.2 k (by simpa using h2)

theorem not_isTarget_of_ne {endKey e top : String} (he : enharmonicEndKey endKey = some e)
    (h1 : ¬ top = endKey) (h2 : ¬ top = e) : ¬ IsTarget endKey top := by
  rintro (h | h)
  · exact h1 h
  · rw [he] at h
    simp only [Option.some.injEq] at h
    exact h2 h.symm

theorem bfsLoop_reached (allowed : List Int) (startKey endKey : String) :
    ∀ (fuel : Nat) (queue : List (List String)) (path : List String),
      (∀ q ∈ queue, SearchPath allowed startKey endKey q) →
      modulateBFSLoop endKey allowed fuel queue = Outcome.returned path → path ≠ [] →
      Reached allowed startKey endKey path := by
  intro fuel
  induction fuel with
  | zero =>
    intro queue path _ hrun hne
    cases queue with
    | nil =>
      simp only [modulateBFSLoop, Outcome.returned.injEq] at hrun
      exact absurd hrun.symm hne
    | cons p paths => simp [modulateBFSLoop] at hrun
  | succ fuel ih =>
    intro queue path hq hrun hne
    cases queue with
    | nil =>
      simp only [modulateBFSLoop, Outcome.returned.injEq] at hrun
      exact absurd hrun.symm hne
    | cons p paths =>
      rw [modulateBFSLoop] at hrun
      cases he : enharmonicEndKey endKey with
      | none => rw [he] at hrun; simp at hrun
      | some e =>
        rw [he] at hrun
        simp only at hrun
        cases p with
        | nil => simp at hrun
        | cons top below =>
          simp only at hrun
          have hp := hq (top :: below) (List.mem_cons_self _ _)
          by_cases h1 : top = endKey
          · rw [if_pos h1] at hrun
            simp only [Outcome.returned.injEq] at hrun
            exact ⟨top, below, by rw [← hrun, h1], Or.inl h1, hp⟩
          · rw [if_neg h1] at hrun
            by_cases h2 : top = e
            · rw [if_pos h2] at hrun
              simp only [Outcome.returned.injEq] at hrun
              exact ⟨top, below, hrun.symm, Or.inr (by rw [he, h2]), hp⟩
            · rw [if_neg h2] at hrun
              cases hrel : relatedKeys top allowed with
              | none => rw [hrel] at hrun; simp at hrun
              | some related =>
                rw [hrel] at hrun
                simp only at hrun
                refine ih _ path ?_ hrun hne
                intro q hq2
                rcases List.mem_append.1 hq2 with hq2 | hq2
                · exact hq q (List.mem_cons_of_mem _ hq2)
                · obtain ⟨key, hkey, rfl⟩ := List.mem_map.1 hq2
                  exact searchPath_cons hp (not_isTarget_of_ne he h1 h2) hrel hkey

theorem modulateBFS_reached (allowed : List Int) (startKey endKey : String) (fuel : Nat)
    (path : List String) (h : modulateBFS fuel startKey endKey allowed = Outcome.returned path)
    (hne : path ≠ []) : Reached allowed startKey endKey path := by
  refine bfsLoop_reached allowed startKey endKey fuel _ path ?_ h hne
  intro q hq
  simp only [List.mem_singleton] at hq
  rw [hq]
  exact searchPath_singleton _ _ _

theorem dfsLoop_sound (allowed : List Int) (startKey endKey : String) (cur : List String)
    (search : List String → List String → Option (Bool × List String × List String))
    (ks0 : List String)
    (hsearch : ∀ best key r, key ∈ ks0 → search best (key :: cur) = some r →
      (r.1 = false → r.2.2 = key :: cur) ∧ (r.1 = true → Reached allowed startKey endKey r.2.1)) :
    ∀ (ks : List String) (best : List String) (r : Bool × List String × List String),
      (∀ key ∈ ks, key ∈ ks0) → dfsLoop search ks best cur = some r →
      (r.1 = false → r.2.2 = cur) ∧ (r.1 = true → Reached allowed startKey endKey r.2.1) := by
  intro ks
  induction ks with
  | nil =>
    intro best r _ hrun
    simp only [dfsLoop, Option.some.injEq] at hrun
    rw [← hrun]
    exact ⟨fun _ => rfl, fun h => absurd h (by simp)⟩
  | cons key rest ih =>
    intro best r hks hrun
    rw [dfsLoop] at hrun
    cases hs : search best (key :: cur) with
    | none => rw [hs] at hrun; simp at hrun
    | some r1 =>
      obtain ⟨b, best2, cur2⟩ := r1
      have hspec := hsearch best key _ (hks key (List.mem_cons_self _ _)) hs
      rw [hs] at hrun
      cases b with
      | true =>
        simp only [Option.some.injEq] at hrun
        rw [← hrun]
        exact ⟨fun h => absurd h (by simp), fun _ => hspec.2 rfl⟩
      | false =>
        have hcur := hspec.1 rfl
        simp only at hcur
        subst hcur
        simp only at hrun
        exact ih best2 r (fun k hk => hks k (List.mem_cons_of_mem _ hk)) hrun

theorem dfsDepth_sound (allowed : List Int) (startKey endKey : String) :
    ∀ (n : Nat) (best cur : List String) (r : Bool × List String × List String),
      SearchPath allowed startKey endKey cur →
      modulateDFSDepth endKey allowed n best cur = some r →
      (r.1 = false → r.2.2 = cur) ∧ (r.1 = true → Reached allowed startKey endKey r.2.1) := by
  intro n
  induction n with
  | zero =>
    intro best cur r _ hrun
    simp only [modulateDFSDepth, Option.some.injEq] at hrun
    rw [← hrun]
    exact ⟨fun _ => rfl, fun h => absurd h (by simp)⟩
  | succ n ih =>
    intro best cur r hcur hrun
    rw [modulateDFSDepth] at hrun
    cases he : enharmonicEndKey endKey with
    | none => rw [he] at hrun; simp at hrun
    | some e =>
      rw [he] at hrun
      simp only at hrun
      cases cur with
      | nil => exact absurd rfl (searchPath_ne_nil hcur)
      | cons top below =>
        simp only at hrun
        by_cases htar : top = endKey ∨ top = e
        · rw [if_pos htar] at hrun
          simp only [Option.some.injEq] at hrun
          rw [← hrun]
          refine ⟨fun h => absurd h (by simp), fun _ => ⟨top, below, rfl, ?_, hcur⟩⟩
          rcases htar with h | h
          · exact Or.inl h
          · exact Or.inr (by rw [he, h])
        · rw [if_neg htar] at hrun
          cases hrel : relatedKeys top allowed with
          | none => rw [hrel] at hrun; simp at hrun
          | some related =>
            rw [hrel] at hrun
            simp only at hrun
            refine dfsLoop_sound allowed startKey endKey (top :: below)
              (modulateDFSDepth endKey allowed n) (validKeys (top :: below) related []) ?_
              _ best r (fun _ h => h) hrun
            intro best2 key r2 hkey hrun2
            exact ih best2 (key :: top :: below) r2
              (searchPath_cons hcur (not_isTarget_of_ne he (fun h => htar (Or.inl h))
                (fun h => htar (Or.inr h))) hrel hkey) hrun2

theorem deepen_sound (allowed : List Int) (startKey endKey : String) :
    ∀ (depths : List Nat) (best q : List String),
      deepen startKey endKey allowed depths best [startKey] = some q → q ≠ [] →
      Reached allowed startKey endKey q := by
  intro depths
  induction depths with
  | nil =>
    intro best q hrun hne
    simp only [deepen, Option.some.injEq] at hrun
    exact absurd hrun.symm hne
  | cons i rest ih =>
    intro best q hrun hne
    rw [deepen] at hrun
    cases hd : modulateDFSHelper startKey endKey allowed best [startKey] (i : Int) with
    | none => rw [hd] at hrun; simp at hrun
    | some r =>
      obtain ⟨b, best2, cur2⟩ := r
      rw [hd] at hrun
      have hspec := dfsDepth_sound allowed startKey endKey _ best [startKey] _
        (searchPath_singleton _ _ _) hd
      cases b with
      | true =>
        simp only [Option.some.injEq] at hrun
        rw [← hrun]
        exact hspec.2 rfl
      | false =>
        have hcur := hspec.1 rfl
        simp only at hcur
        subst hcur
        simp only at hrun
        exact ih best2 q hrun hne

theorem modulateDFS_reached (allowed : List Int) (startKey endKey : String) (path : List String)
    (h : modulateDFS startKey endKey allowed = some path) (hne : path ≠ []) :
    Reached allowed startKey endKey path :=
  deepen_sound allowed startKey endKey _ [] path h hne

theorem reached_head {allowed : List Int} {startKey endKey : String} {path : List String}
    (h : Reached allowed startKey endKey path) : path.head? = some endKey := by
  obtain ⟨top, below, hp, _, _⟩ := h
  rw [hp]; rfl

theorem reached_bottom {allowed : List Int} {startKey endKey : String} {path : List String}
    (h : Reached allowed startKey endKey path) :
    path.getLast? = some startKey ∨ (path = [endKey] ∧ enharmonicEndKey endKey = some startKey) := by
  obtain ⟨top, below, hp, htar, hsp⟩ := h
  have hlast := hsp.1.1
  cases below with
  | nil =>
    simp only [List.getLast?_singleton, Option.some.injEq] at hlast
    subst hlast
    rcases htar with h | h
    · left; rw [hp, h]; rfl
    · right; exact ⟨hp, h⟩
  | cons b bs =>
    left
    rw [List.getLast?_cons_cons] at hlast
    rw [hp, List.getLast?_cons_cons]
    exact hlast

theorem reached_walk {allowed : List Int} {startKey endKey : String} {path : List String}
    (h : Reached allowed startKey endKey path) :
    ∃ reached below, path = endKey :: below ∧ IsTarget endKey reached ∧
      (below.reverse ++ [reached]).head? = some startKey ∧
      List.Chain' (Related allowed) (below.reverse ++ [reached]) := by
  obtain ⟨top, below, hp, htar, hsp⟩ := h
  refine ⟨top, below, hp, htar, ?_, ?_⟩
  · rw [← List.reverse_cons, List.head?_reverse]
    exact hsp.1.1
  · rw [← List.reverse_cons, List.chain'_reverse]
    exact hsp.1.2

theorem reached_nodup {allowed : List Int} {startKey endKey : String} {path : List String}
    (h : Reached allowed startKey endKey path) : path.Nodup := by
  obtain ⟨top, below, hp, _, hsp⟩ := h
  rw [hp]
  refine List.nodup_cons.2 ⟨?_, (List.nodup_cons.1 hsp.2.1).2⟩
  intro hmem
  exact hsp.2.2 endKey (by simpa using hmem) (Or.inl rfl)

/-- C11: for every start key, end key and allowed set, a non-empty path returned
by `modulateBFS` or by `modulateDFS` has the string `endKey` as its last key (the
top of the returned stack), whether the search stopped on `endKey` or on the
string `enharmonicEndKey` builds from it. -/
theorem returned_top_is_endKey (startKey endKey : String) (allowed : List Int) :
    (∀ (fuel : Nat) (path : List String),
      modulateBFS fuel startKey endKey allowed = Outcome.returned path → path ≠ [] →
      path.head? = some endKey) ∧
    (∀ path : List String, modulateDFS startKey endKey allowed = some path → path ≠ [] →
      path.head? = some endKey) :=
  ⟨fun fuel path h hne => reached_head (modulateBFS_reached allowed startKey endKey fuel path h hne),
    fun path h hne => reached_head (modulateDFS_reached allowed startKey endKey path h hne)⟩

/-- C11 (witness): from `E major` to `Db minor` with relation 5 both searches
stop on the sharp spelling `C# minor` and return `Db minor` on top. -/
theorem returned_top_is_endKey_witness :
    modulateBFS 2 "E major" "Db minor" [5] = Outcome.returned ["Db minor", "E major"] ∧
      modulateDFS "E major" "Db minor" [5] = some ["Db minor", "E major"] ∧
      ["Db minor", "E major"].head? = some "Db minor" :=
  ⟨by decide, by decide,
    (returned_top_is_endKey "E major" "Db minor" [5]).1 2 ["Db minor", "E major"]
      (by decide) (by decide)⟩

/-- C12 (counterexample): for start key `C# minor` and end key `Db minor` both
searches return the one-key path `Db minor`, whose first key is not the start
key. -/
theorem returned_bottom_counterexample :
    modulateBFS 1 "C# minor" "Db minor" [] = Outcome.returned ["Db minor"] ∧
      modulateDFS "C# minor" "Db minor" [] = some ["Db minor"] ∧
      ["Db minor"].getLast? ≠ some "C# minor" :=
  ⟨by decide, by decide, by decide⟩

/-- C12 (amended): for every start key, end key and allowed set, a non-empty
path returned by `modulateBFS` or by `modulateDFS` has `startKey` as its first
key (the bottom of the stack), unless it is the one-key path `endKey` returned
for a start key that is the string `enharmonicEndKey` builds from `endKey`. -/
theorem returned_bottom_is_startKey (startKey endKey : String) (allowed : List Int) :
    (∀ (fuel : Nat) (path : List String),
      modulateBFS fuel startKey endKey allowed = Outcome.returned path → path ≠ [] →
      path.getLast? = some startKey ∨
        (path = [endKey] ∧ enharmonicEndKey endKey = some startKey)) ∧
    (∀ path : List String, modulateDFS startKey endKey allowed = some path → path ≠ [] →
      path.getLast? = some startKey ∨
        (path = [endKey] ∧ enharmonicEndKey endKey = some startKey)) :=
  ⟨fun fuel path h hne => reached_bottom (modulateBFS_reached allowed startKey endKey fuel path h hne),
    fun path h hne => reached_bottom (modulateDFS_reached allowed startKey endKey path h hne)⟩

/-- C12 (witness of the amended claim): the searches from `E major` to
`Db minor` with relation 5. -/
theorem returned_bottom_is_startKey_witness :
    modulateBFS 2 "E major" "Db minor" [5] = Outcome.returned ["Db minor", "E major"] ∧
      modulateDFS "E major" "Db minor" [5] = some ["Db minor", "E major"] ∧
      (["Db minor", "E major"].getLast? = some "E major" ∨
        (["Db minor", "E major"] = ["Db minor"] ∧ enharmonicEndKey "Db minor" = some "E major")) :=
  ⟨by decide, by decide,
    (returned_bottom_is_startKey "E major" "Db minor" [5]).2 ["Db minor", "E major"]
      (by decide) (by decide)⟩

/-- C13: for well-formed start and end keys and any allowed set, both searches
return a path, and in a non-empty returned path, read from the start key on with
its last key `endKey` replaced by the key the search stopped on (`endKey` itself
or the string `enharmonicEndKey` builds from it), each key after the first is a
member of `relatedKeys` of its predecessor. -/
theorem returned_path_is_walk (startKey endKey : String) (allowed : List Int)
    (hs : WellFormed startKey) (he : WellFormed endKey) :
    ((∃ path, modulateBFS (7 ^ 24) startKey endKey allowed = Outcome.returned path) ∧
      ∀ (fuel : Nat) (path : List String),
        modulateBFS fuel startKey endKey allowed = Outcome.returned path → path ≠ [] →
        ∃ reached below, path = endKey :: below ∧ IsTarget endKey reached ∧
          (below.reverse ++ [reached]).head? = some startKey ∧
          List.Chain' (Related allowed) (below.reverse ++ [reached])) ∧
    ((∃ path, modulateDFS startKey endKey allowed = some path) ∧
      ∀ path : List String, modulateDFS startKey endKey allowed = some path → path ≠ [] →
        ∃ reached below, path = endKey :: below ∧ IsTarget endKey reached ∧
          (below.reverse ++ [reached]).head? = some startKey ∧
          List.Chain' (Related allowed) (below.reverse ++ [reached])) := by
  refine ⟨⟨modulateBFS_terminates allowed startKey endKey hs he, ?_⟩, ⟨?_, ?_⟩⟩
  · exact fun fuel path h hne => reached_walk (modulateBFS_reached allowed startKey endKey fuel path h hne)
  · obtain ⟨q, hq, _⟩ := modulateDFS_result allowed startKey endKey hs he
    exact ⟨q, hq⟩
  · exact fun path h hne => reached_walk (modulateDFS_reached allowed startKey endKey path h hne)

/-- C13 (witness): the path of two keys from `E major` to `Db minor` with
relations 0 and 5, found through the sharp spelling `C# minor`. -/
theorem returned_path_is_walk_witness :
    WellFormed "E major" ∧ WellFormed "Db minor" ∧
      modulateDFS "E major" "Db minor" [0, 5] = some ["Db minor", "E major"] ∧
      ∃ reached below, ["Db minor", "E major"] = "Db minor" :: below ∧
        IsTarget "Db minor" reached ∧ (below.reverse ++ [reached]).head? = some "E major" ∧
        List.Chain' (Related [0, 5]) (below.reverse ++ [reached]) :=
  ⟨by decide, by decide, by decide,
    (returned_path_is_walk "E major" "Db minor" [0, 5] (by decide) (by decide)).2.2
      ["Db minor", "E major"] (by decide) (by decide)⟩

/-- C14: for every start key, end key and allowed set, no key string occurs
twice in a path returned by `modulateBFS` or by `modulateDFS`. -/
theorem returned_path_nodup (startKey endKey : String) (allowed : List Int) :
    (∀ (fuel : Nat) (path : List String),
      modulateBFS fuel startKey endKey allowed = Outcome.returned path → path.Nodup) ∧
    (∀ path : List String, modulateDFS startKey endKey allowed = some path → path.Nodup) := by
  constructor
  · intro fuel path h
    by_cases hne : path = []
    · rw [hne]; exact List.nodup_nil
    · exact reached_nodup (modulateBFS_reached allowed startKey endKey fuel path h hne)
  · intro path h
    by_cases hne : path = []
    · rw [hne]; exact List.nodup_nil
    · exact reached_nodup (modulateDFS_reached allowed startKey endKey path h hne)

/-- C14 (witness): the path of four keys from `C major` to `Bb minor` of the
tests. -/
theorem returned_path_nodup_witness :
    modulateDFS "C major" "Bb minor" [0, 1, 2, 3, 4, 5]
        = some ["Bb minor", "Ab major", "C minor", "C major"] ∧
      ["Bb minor", "Ab major", "C minor", "C major"].Nodup :=
  ⟨by decide,
    (returned_path_nodup "C major" "Bb minor" [0, 1, 2, 3, 4, 5]).2 _ (by decide)⟩

/-- C17: for a well-formed key `k` and any allowed set, `modulateBFS(k, k,
allowed)`, run for at least one iteration, and `modulateDFS(k, k, allowed)` both
return the one-key path `k`. -/
theorem same_key_single_path (key : String) (allowed : List Int) (hk : WellFormed key) :
    (∀ fuel : Nat, modulateBFS (fuel + 1) key key allowed = Outcome.returned [key]) ∧
      modulateDFS key key allowed = some [key] := by
  obtain ⟨t, rest, h1, h2⟩ := wellFormedKeys_length_ge key hk
  have henh : enharmonicEndKey key = some (mapGet enharmonics t ++ rest) := by
    unfold enharmonicEndKey; rw [h1, h2]
  constructor
  · intro fuel
    rw [modulateBFS, modulateBFSLoop, henh]
    simp
  · rw [modulateDFS, List.range_eq_range', List.range'_succ, deepen, modulateDFSHelper]
    have : (((0 : Nat) : Int) + 1).toNat = 0 + 1 := rfl
    rw [this, modulateDFSDepth, henh]
    simp

/-- C17 (witness): the key `C major` of the tests. -/
theorem same_key_single_path_witness :
    WellFormed "C major" ∧
      (∀ fuel : Nat, modulateBFS (fuel + 1) "C major" "C major" [0, 1, 2, 3, 4, 5]
        = Outcome.returned ["C major"]) ∧
      modulateDFS "C major" "C major" [0, 1, 2, 3, 4, 5] = some ["C major"] :=
  ⟨by decide, same_key_single_path "C major" [0, 1, 2, 3, 4, 5] (by decide)⟩

theorem addRelated_eq (allowed : List Int) (k : Int) (n : String) (related : List String) :
    addRelated allowed k (some n) related
      = some (if k ∈ allowed then setAdd related (standardize n) else related) := by
  unfold addRelated
  split <;> rfl

theorem allSome_six {o0 o1 o2 o3 o4 o5 : Option String} {l : List String}
    (h : allSome [o0, o1, o2, o3, o4, o5] = some l) :
    ∃ n0 n1 n2 n3 n4 n5, o0 = some n0 ∧ o1 = some n1 ∧ o2 = some n2 ∧ o3 = some n3 ∧
      o4 = some n4 ∧ o5 = some n5 ∧ l = [n0, n1, n2, n3, n4, n5] := by
  cases o0 <;> cases o1 <;> cases o2 <;> cases o3 <;> cases o4 <;> cases o5 <;>
    simp [allSome] at h
  exact ⟨_, _, _, _, _, _, rfl, rfl, rfl, rfl, rfl, rfl, h.symm⟩

theorem relatedKeys_eq_collect (key : String) (allowed : List Int) (cs : List String)
    (h : neighbours key = some cs) :
    cs.length = 6 ∧
      relatedKeys key allowed = some (collect allowed (List.zip relationIndices cs) []) := by
  unfold neighbours at h
  cases hs : splitKey key with
  | none => rw [hs] at h; simp at h
  | some tm =>
    obtain ⟨t, m⟩ := tm
    rw [hs] at h
    simp only at h
    cases hall : allSome (candidates t m) with
    | none => rw [hall] at h; simp at h
    | some l =>
      rw [hall] at h
      simp only [Option.some.injEq] at h
      unfold relatedKeys
      rw [hs]
      simp only
      unfold candidates at hall
      by_cases hm : m = "major"
      · rw [if_pos hm] at hall ⊢
        obtain ⟨n0, n1, n2, n3, n4, n5, e0, e1, e2, e3, e4, e5, hl⟩ := allSome_six hall
        simp only [Option.some.injEq] at e0
        rw [e1, e2, e3, e4, e5, e0, ← h, hl]
        refine ⟨rfl, ?_⟩
        simp only [addRelated_eq, Option.some_bind]
        rfl
      · rw [if_neg hm] at hall ⊢
        obtain ⟨n0, n1, n2, n3, n4, n5, e0, e1, e2, e3, e4, e5, hl⟩ := allSome_six hall
        simp only [Option.some.injEq] at e0
        rw [e1, e2, e3, e4, e5, e0, ← h, hl]
        refine ⟨rfl, ?_⟩
        simp only [addRelated_eq, Option.some_bind]
        rfl

theorem mem_collect (allowed : List Int) (L : List (Int × String)) (acc : List String)
    (x : String) :
    x ∈ collect allowed L acc ↔ x ∈ acc ∨ ∃ p ∈ L, p.1 ∈ allowed ∧ x = p.2 := by
  induction L generalizing acc with
  | nil => simp [collect]
  | cons p rest ih =>
    obtain ⟨k, n⟩ := p
    rw [collect, ih]
    by_cases hk : k ∈ allowed
    · rw [if_pos hk, mem_setAdd]
      constructor
      · rintro ((h | h) | ⟨p, hp, h1, h2⟩)
        · exact Or.inr ⟨(k, n), List.mem_cons_self _ _, hk, h⟩
        · exact Or.inl h
        · exact Or.inr ⟨p, List.mem_cons_of_mem _ hp, h1, h2⟩
      · rintro (h | ⟨p, hp, h1, h2⟩)
        · exact Or.inl (Or.inr h)
        · rcases List.mem_cons.1 hp with hp | hp
          · subst hp; exact Or.inl (Or.inl h2)
          · exact Or.inr ⟨p, hp, h1, h2⟩
    · rw [if_neg hk]
      constructor
      · rintro (h | ⟨p, hp, h1, h2⟩)
        · exact Or.inl h
        · exact Or.inr ⟨p, List.mem_cons_of_mem _ hp, h1, h2⟩
      · rintro (h | ⟨p, hp, h1, h2⟩)
        · exact Or.inl h
        · rcases List.mem_cons.1 hp with hp | hp
          · subst hp; exact absurd h1 hk
          · exact Or.inr ⟨p, hp, h1, h2⟩

theorem perm_setAdd (s : List String) (x : String) (hx : x ∉ s) :
    List.Perm (setAdd s x) (x :: s) := by
  induction s with
  | nil => exact List.Perm.refl _
  | cons y ys ih =>
    simp only [setAdd]
    split
    · exact List.Perm.refl _
    · split
      · rename_i hxy
        exact absurd (hxy ▸ List.mem_cons_self _ _) hx
      · exact ((ih (fun h => hx (List.mem_cons_of_mem _ h))).cons y).trans (List.Perm.swap _ _ _)

theorem collect_invariant (allowed : List Int) (L : List (Int × String)) (acc : List String)
    (hacc : acc.Nodup) (hL : (L.map Prod.snd).Nodup) (hdis : ∀ p ∈ L, p.2 ∉ acc) :
    (collect allowed L acc).Nodup ∧
      (collect allowed L acc).length
        = acc.length + (L.filter (fun p => decide (p.1 ∈ allowed))).length := by
  induction L generalizing acc with
  | nil => exact ⟨hacc, by simp [collect]⟩
  | cons p rest ih =>
    obtain ⟨k, n⟩ := p
    simp only [List.map_cons, List.nodup_cons] at hL
    have hn : n ∉ acc := hdis (k, n) (List.mem_cons_self _ _)
    have hrest : ∀ q ∈ rest, q.2 ∉ acc := fun q hq => hdis q (List.mem_cons_of_mem _ hq)
    rw [collect]
    by_cases hk : k ∈ allowed
    · rw [if_pos hk]
      have hperm := perm_setAdd acc n hn
      obtain ⟨h1, h2⟩ := ih (setAdd acc n) (hperm.nodup_iff.2 (List.nodup_cons.2 ⟨hn, hacc⟩)) hL.2
        (by
          intro q hq hmem
          rcases (mem_setAdd _ _ _).1 hmem with h | h
          · exact hL.1 (List.mem_map.2 ⟨q, hq, h⟩)
          · exact hrest q hq h)
      refine ⟨h1, ?_⟩
      rw [h2, hperm.length_eq, List.filter_cons_of_pos (by simpa using hk)]
      simp only [List.length_cons]
      omega
    · rw [if_neg hk]
      obtain ⟨h1, h2⟩ := ih acc hacc hL.2 hrest
      refine ⟨h1, ?_⟩
      rw [h2, List.filter_cons_of_neg (by simpa using hk)]

theorem collect_of_not_allowed (allowed : List Int) (L : List (Int × String))
    (acc : List String) (h : ∀ p ∈ L, p.1 ∉ allowed) : collect allowed L acc = acc := by
  induction L generalizing acc with
  | nil => rfl
  | cons p rest ih =>
    obtain ⟨k, n⟩ := p
    rw [collect, if_neg (h (k, n) (List.mem_cons_self _ _))]
    exact ih acc (fun q hq => h q (List.mem_cons_of_mem _ hq))

set_option maxRecDepth 100000 in
theorem wellFormed_neighboursDistinct :
    ∀ key ∈ wellFormedKeys, neighboursDistinct key = true := by
  decide

theorem neighbours_of_wellFormed (key : String) (hk : WellFormed key) :
    ∃ cs, neighbours key = some cs ∧ cs.Nodup ∧ ∀ c ∈ cs, c ∈ displayKeys := by
  have h := wellFormed_neighboursDistinct key hk
  unfold neighboursDistinct at h
  cases hn : neighbours key with
  | none => rw [hn] at h; simp at h
  | some cs =>
    rw [hn] at h
    simp only [Bool.and_eq_true, decide_eq_true_eq, List.all_eq_true] at h
    exact ⟨cs, rfl, h.1, h.2⟩

theorem zip_indices_fst (cs : List String) (h : cs.length = 6) :
    (List.zip relationIndices cs).map Prod.fst = relationIndices :=
  List.map_fst_zip _ _ (by rw [h]; decide)

theorem zip_indices_snd (cs : List String) (h : cs.length = 6) :
    (List.zip relationIndices cs).map Prod.snd = cs :=
  List.map_snd_zip _ _ (by rw [h]; decide)

theorem zip_indices_range (cs : List String) (h : cs.length = 6) :
    ∀ p ∈ List.zip relationIndices cs, 0 ≤ p.1 ∧ p.1 ≤ 5 := by
  intro p hp
  have hmem : p.1 ∈ (List.zip relationIndices cs).map Prod.fst := List.mem_map.2 ⟨p, hp, rfl⟩
  rw [zip_indices_fst cs h] at hmem
  simp only [relationIndices, List.mem_cons, List.mem_singleton, List.not_mem_nil, or_false]
    at hmem
  omega

/-- C15: for every flat tonic with its sharp equivalent in `enharmonics`, for
both modalities and every allowed set, `relatedKeys` returns the same set for
the flat-spelled key and for the sharp-spelled key, and it returns a set. -/
theorem relatedKeys_enharmonic (flat sharp modality : String) (allowed : List Int)
    (hp : (flat, sharp) ∈ enharmonics) (hm : modality ∈ ["major", "minor"]) :
    relatedKeys (flat ++ " " ++ modality) allowed = relatedKeys (sharp ++ " " ++ modality) allowed ∧
      ∃ l, relatedKeys (flat ++ " " ++ modality) allowed = some l := by
  have hall : ∀ p ∈ enharmonics, ∀ m ∈ ["major", "minor"],
      splitKey (p.1 ++ " " ++ m) = splitKey (p.2 ++ " " ++ m) ∧
        (p.1 ++ " " ++ m) ∈ wellFormedKeys := by decide
  obtain ⟨hsplit, hwf⟩ := hall (flat, sharp) hp modality hm
  simp only at hsplit hwf
  constructor
  · unfold relatedKeys
    rw [hsplit]
  · obtain ⟨l, hl, _, _⟩ :=
      relatedKeys_of_displayed _ allowed (wellFormed_neighboursDisplayed _ hwf)
    exact ⟨l, hl⟩

/-- C15 (witness): `Bb minor` and `A# minor`. -/
theorem relatedKeys_enharmonic_witness :
    ("Bb", "A#") ∈ enharmonics ∧ "minor" ∈ ["major", "minor"] ∧
      relatedKeys ("Bb" ++ " " ++ "minor") [0, 3, 5] = relatedKeys ("A#" ++ " " ++ "minor") [0, 3, 5] :=
  ⟨by decide, by decide, (relatedKeys_enharmonic "Bb" "A#" "minor" [0, 3, 5] (by decide)
    (by decide)).1⟩

/-- C16: for a well-formed key and any list of integers `allowed`, a key is in
`relatedKeys(key, allowed)` exactly when it is in `relatedKeys(key, {k})` for
some `k` in `allowed`; an index outside 0..5 on its own gives the empty set, and
so does the empty `allowed`. -/
theorem relatedKeys_union (key : String) (allowed : List Int) (hk : WellFormed key) :
    ∃ l, relatedKeys key allowed = some l ∧
      (∀ x, x ∈ l ↔ ∃ k ∈ allowed, ∃ lk, relatedKeys key [k] = some lk ∧ x ∈ lk) ∧
      (∀ k : Int, (k < 0 ∨ 5 < k) → relatedKeys key [k] = some []) ∧
      relatedKeys key [] = some [] := by
  obtain ⟨cs, hn, _, _⟩ := neighbours_of_wellFormed key hk
  have hrel := fun a => (relatedKeys_eq_collect key a cs hn).2
  have hlen := (relatedKeys_eq_collect key allowed cs hn).1
  refine ⟨_, hrel allowed, ?_, ?_, ?_⟩
  · intro x
    rw [mem_collect]
    constructor
    · rintro (h | ⟨p, hp, h1, h2⟩)
      · exact absurd h (List.not_mem_nil _)
      · refine ⟨p.1, h1, _, hrel [p.1], ?_⟩
        rw [mem_collect]
        exact Or.inr ⟨p, hp, List.mem_singleton_self _, h2⟩
    · rintro ⟨k, hk1, lk, hlk, hx⟩
      rw [hrel [k]] at hlk
      simp only [Option.some.injEq] at hlk
      rw [← hlk, mem_collect] at hx
      rcases hx with h | ⟨p, hp, h1, h2⟩
      · exact absurd h (List.not_mem_nil _)
      · rw [List.mem_singleton] at h1
        exact Or.inr ⟨p, hp, h1 ▸ hk1, h2⟩
  · intro k hout
    rw [hrel [k], collect_of_not_allowed]
    intro p hp hmem
    rw [List.mem_singleton] at hmem
    have := zip_indices_range cs hlen p hp
    omega
  · rw [hrel [], collect_of_not_allowed]
    intro p _ hmem
    exact absurd hmem (List.not_mem_nil _)

/-- C16 (witness): the key `F minor` with the relations 0, 3 and 5 of the tests. -/
theorem relatedKeys_union_witness :
    WellFormed "F minor" ∧
      ∃ l, relatedKeys "F minor" [0, 3, 5] = some l ∧
        (∀ x, x ∈ l ↔ ∃ k ∈ [(0 : Int), 3, 5], ∃ lk, relatedKeys "F minor" [k] = some lk ∧ x ∈ lk) ∧
        (∀ k : Int, (k < 0 ∨ 5 < k) → relatedKeys "F minor" [k] = some []) ∧
        relatedKeys "F minor" [] = some [] :=
  ⟨by decide, relatedKeys_union "F minor" [0, 3, 5] (by decide)⟩

/-- C19: for a well-formed key and any allowed set, `relatedKeys` returns a set
without repeated key whose size is the number of relation indices 0..5 that are
in `allowed`; the size is at most 6, and it is 6 when all six indices are
allowed. -/
theorem relatedKeys_count (key : String) (allowed : List Int) (hk : WellFormed key) :
    ∃ l, relatedKeys key allowed = some l ∧ l.Nodup ∧
      l.length = (relationIndices.filter (fun k => decide (k ∈ allowed))).length ∧
      l.length ≤ 6 ∧ ((∀ k ∈ relationIndices, k ∈ allowed) → l.length = 6) := by
  obtain ⟨cs, hn, hnd, _⟩ := neighbours_of_wellFormed key hk
  obtain ⟨hlen, hrel⟩ := relatedKeys_eq_collect key allowed cs hn
  obtain ⟨h1, h2⟩ := collect_invariant allowed (List.zip relationIndices cs) [] List.nodup_nil
    (by rw [zip_indices_snd cs hlen]; exact hnd) (fun p _ h => absurd h (List.not_mem_nil _))
  have hcount : (collect allowed (List.zip relationIndices cs) []).length
      = (relationIndices.filter (fun k => decide (k ∈ allowed))).length := by
    rw [h2]
    conv_rhs => rw [← zip_indices_fst cs hlen, List.filter_map, List.length_map]
    simp [Function.comp_def]
  refine ⟨_, hrel, h1, hcount, ?_, ?_⟩
  · rw [hcount]
    exact le_trans (List.length_filter_le _ _) (by decide)
  · intro hall
    rw [hcount, List.filter_eq_self.2 (fun k hk2 => by simpa using hall k hk2)]
    rfl

/-- C19 (witness): the key `F# major` of the tests with all six relations. -/
theorem relatedKeys_count_witness :
    WellFormed "F# major" ∧
      ∃ l, relatedKeys "F# major" [0, 1, 2, 3, 4, 5] = some l ∧ l.Nodup ∧
        l.length = (relationIndices.filter
          (fun k => decide (k ∈ [(0 : Int), 1, 2, 3, 4, 5]))).length ∧
        l.length ≤ 6 ∧ ((∀ k ∈ relationIndices, k ∈ [(0 : Int), 1, 2, 3, 4, 5]) → l.length = 6) :=
  ⟨by decide, relatedKeys_count "F# major" [0, 1, 2, 3, 4, 5] (by decide)⟩

set_option maxRecDepth 100000 in
theorem displayKeys_standard : ∀ key ∈ displayKeys,
    standardize key = key ∧ key ∉ rewrittenKeys := by
  decide

/-- C20: for a well-formed key and any allowed set, every key that `relatedKeys`
returns is a fixed point of `standardize`, is none of the sharp spellings that
`standardize` rewrites (`A# major`, `A# minor`, `D# major`, `G# major`,
`C# major`), and is a well-formed key, on which `relatedKeys` returns a set
again. -/
theorem relatedKeys_display (key : String) (allowed : List Int) (hk : WellFormed key) :
    ∃ l, relatedKeys key allowed = some l ∧
      ∀ x ∈ l, standardize x = x ∧
        x ∉ ["A# major", "A# minor", "D# major", "G# major", "C# major"] ∧ WellFormed x ∧
        ∀ allowed2 : List Int, ∃ l2, relatedKeys x allowed2 = some l2 := by
  obtain ⟨l, hl, hsub, _⟩ :=
    relatedKeys_of_displayed key allowed (wellFormed_neighboursDisplayed key hk)
  refine ⟨l, hl, ?_⟩
  intro x hx
  have hd := hsub x hx
  have hwf := displayKeys_wellFormed x hd
  obtain ⟨h1, h2⟩ := displayKeys_standard x hd
  refine ⟨h1, h2, hwf, ?_⟩
  intro allowed2
  obtain ⟨l2, hl2, _, _⟩ :=
    relatedKeys_of_displayed x allowed2 (wellFormed_neighboursDisplayed x hwf)
  exact ⟨l2, hl2⟩

/-- C20 (witness): the key `G# minor` of the tests with all six relations. -/
theorem relatedKeys_display_witness :
    WellFormed "G# minor" ∧
      ∃ l, relatedKeys "G# minor" [0, 1, 2, 3, 4, 5] = some l ∧
        ∀ x ∈ l, standardize x = x ∧
          x ∉ ["A# major", "A# minor", "D# major", "G# major", "C# major"] ∧ WellFormed x ∧
          ∀ allowed2 : List Int, ∃ l2, relatedKeys x allowed2 = some l2 :=
  ⟨by decide, relatedKeys_display "G# minor" [0, 1, 2, 3, 4, 5] (by decide)⟩

theorem swapRelation_swapRelation (k : Int) : swapRelation (swapRelation k) = k := by
  unfold swapRelation
  split_ifs <;> omega

theorem related_single_iff (a b : String) (k : Int) (cs : List String)
    (h : neighbours a = some cs) :
    Related [k] a b ↔ (k, b) ∈ List.zip relationIndices cs := by
  have hrel := (relatedKeys_eq_collect a [k] cs h).2
  constructor
  · rintro ⟨l, hl, hb⟩
    rw [hrel] at hl
    simp only [Option.some.injEq] at hl
    rw [← hl, mem_collect] at hb
    rcases hb with hb | ⟨p, hp, h1, h2⟩
    · exact absurd hb (List.not_mem_nil _)
    · rw [List.mem_singleton] at h1
      obtain ⟨p1, p2⟩ := p
      simp only at h1 h2
      rw [← h1, h2]
      exact hp
  · intro hmem
    refine ⟨_, hrel, ?_⟩
    rw [mem_collect]
    exact Or.inr ⟨(k, b), hmem, List.mem_singleton_self _, rfl⟩

theorem related_all_iff (a b : String) (allowed : List Int) (cs : List String)
    (h : neighbours a = some cs) (hall : ∀ i ∈ relationIndices, i ∈ allowed) :
    Related allowed a b ↔ ∃ k, (k, b) ∈ List.zip relationIndices cs := by
  have hrel := (relatedKeys_eq_collect a allowed cs h).2
  constructor
  · rintro ⟨l, hl, hb⟩
    rw [hrel] at hl
    simp only [Option.some.injEq] at hl
    rw [← hl, mem_collect] at hb
    rcases hb with hb | ⟨p, hp, _, h2⟩
    · exact absurd hb (List.not_mem_nil _)
    · obtain ⟨p1, p2⟩ := p
      simp only at h2
      exact ⟨p1, by rw [h2]; exact hp⟩
  · rintro ⟨k, hmem⟩
    refine ⟨_, hrel, ?_⟩
    rw [mem_collect]
    exact Or.inr ⟨(k, b), hmem, hall k (List.of_mem_zip hmem).1, rfl⟩

set_option maxRecDepth 100000 in
theorem displayKeys_reversibleAt : ∀ a ∈ displayKeys, reversibleAt a = true := by
  decide

theorem neighbour_back (a b : String) (k : Int) (cs : List String) (ha : a ∈ displayKeys)
    (h : neighbours a = some cs) (hmem : (k, b) ∈ List.zip relationIndices cs) :
    ∃ ds, neighbours b = some ds ∧ (swapRelation k, a) ∈ List.zip relationIndices ds := by
  have hr := displayKeys_reversibleAt a ha
  unfold reversibleAt at hr
  rw [h] at hr
  simp only [List.all_eq_true] at hr
  have := hr (k, b) hmem
  simp only at this
  cases hn : neighbours b with
  | none => rw [hn] at this; simp at this
  | some ds =>
    rw [hn] at this
    exact ⟨ds, rfl, by simpa using this⟩

/-- C22: for display keys `a` and `b` (the 24 keys `standardize` gives for the
sharp-spelled keys) and every relation index `k`, `b` is in
`relatedKeys(a, {k})` if and only if `a` is in `relatedKeys(b, {s(k)})`, where
`s` exchanges 3 and 4 and fixes the other indices; and whenever all six indices
are allowed, `b` is in `relatedKeys(a, allowed)` if and only if `a` is in
`relatedKeys(b, allowed)`. -/
theorem relatedKeys_reversible (a b : String) (ha : a ∈ displayKeys) (hb : b ∈ displayKeys) :
    (∀ k : Int, Related [k] a b ↔ Related [swapRelation k] b a) ∧
    (∀ allowed : List Int, (∀ i ∈ relationIndices, i ∈ allowed) →
      (Related allowed a b ↔ Related allowed b a)) := by
  obtain ⟨cs, hcs, _, _⟩ := neighbours_of_wellFormed a (displayKeys_wellFormed a ha)
  obtain ⟨ds, hds, _, _⟩ := neighbours_of_wellFormed b (displayKeys_wellFormed b hb)
  have hfwd : ∀ k, (k, b) ∈ List.zip relationIndices cs →
      (swapRelation k, a) ∈ List.zip relationIndices ds := by
    intro k hmem
    obtain ⟨ds2, h1, h2⟩ := neighbour_back a b k cs ha hcs hmem
    rw [hds] at h1
    simp only [Option.some.injEq] at h1
    rw [h1]; exact h2
  have hbwd : ∀ k, (k, a) ∈ List.zip relationIndices ds →
      (swapRelation k, b) ∈ List.zip relationIndices cs := by
    intro k hmem
    obtain ⟨cs2, h1, h2⟩ := neighbour_back b a k ds hb hds hmem
    rw [hcs] at h1
    simp only [Option.some.injEq] at h1
    rw [h1]; exact h2
  constructor
  · intro k
    rw [related_single_iff a b k cs hcs, related_single_iff b a (swapRelation k) ds hds]
    constructor
    · exact hfwd k
    · intro h
      have := hbwd _ h
      rwa [swapRelation_swapRelation] at this
  · intro allowed hall
    rw [related_all_iff a b allowed cs hcs hall, related_all_iff b a allowed ds hds hall]
    constructor
    · rintro ⟨k, h⟩; exact ⟨_, hfwd k h⟩
    · rintro ⟨k, h⟩; exact ⟨_, hbwd k h⟩

/-- C22 (witness): `F major` is the neighbour of `C major` by relation 3, and
`C major` the neighbour of `F major` by relation 4. -/
theorem relatedKeys_reversible_witness :
    "C major" ∈ displayKeys ∧ "F major" ∈ displayKeys ∧ swapRelation 3 = 4 ∧
      Related [3] "C major" "F major" ∧ Related [4] "F major" "C major" ∧
      (Related [3] "C major" "F major" ↔ Related [swapRelation 3] "F major" "C major") :=
  ⟨by decide, by decide, by decide, ⟨["F major"], by decide, by decide⟩,
    ⟨["C major"], by decide, by decide⟩,
    (relatedKeys_reversible "C major" "F major" (by decide) (by decide)).1 3⟩

/-- The flat spellings that `standardize` leaves alone are no display keys, and
the step from them does not lead back: `relatedKeys("Db minor", {0})` holds
`Db major`, while `relatedKeys("Db major", {0})` holds `C# minor`. -/
theorem flat_spelling_not_reversible :
    "Db minor" ∉ displayKeys ∧ relatedKeys "Db minor" [0] = some ["Db major"] ∧
      relatedKeys "Db major" [0] = some ["C# minor"] :=
  ⟨by decide, by decide, by decide⟩

end Modulate
